import Mathlib

/-!
# A verification of the gap-constrained repeat scheduler

This file is a shallow embedding of `src/scheduler.py` of the
`playlist-generator` repository, together with theorems about the embedded
functions.  Tracks are modelled as `(name, count)` pairs (`String × Int`),
Python dicts as insertion-ordered association lists, the `heapq` min-heap as
a list kept sorted by the Python tuple order on `(-count, name)` (popping the
head of a sorted list yields exactly the minimum, which is what `heapq.heappop`
returns), and the `collections.deque` cooldown as a FIFO list.  Exceptions are
modelled with `Except`; the main loop of `_schedule_with_gap` takes an explicit
fuel argument (one unit per placed occurrence) whose exhaustion is an extra,
unreachable error constructor.
-/

namespace Scheduler

/-! ## Basic count helpers (`_count_map`) -/

/-- One step of building the count dictionary: `counts[name] = counts.get(name, 0) + c`.
Python dicts preserve insertion order, so an absent key is appended at the end
and a present key is updated in place. -/
def addCount (m : List (String × Int)) (name : String) (c : Int) : List (String × Int) :=
  if m.any (fun p => p.1 = name) then
    m.map (fun p => if p.1 = name then (p.1, p.2 + c) else p)
  else
    m ++ [(name, c)]

/-- `_count_map(tracks)`: merge duplicate names by summing counts, dropping
entries whose count is `<= 0` (`if c > 0`). -/
def _count_map (tracks : List (String × Int)) : List (String × Int) :=
  tracks.foldl (fun m t => if t.2 > 0 then addCount m t.1 t.2 else m) []

/-- `sum(counts.values())`. -/
def sumVals : List (String × Int) → Int
  | [] => 0
  | (_, c) :: r => c + sumVals r

/-- `max(counts.values())`.  Folding from `0` agrees with Python's `max` on the
nonempty lists of positive counts produced by `_count_map`. -/
def maxVals : List (String × Int) → Int
  | [] => 0
  | (_, c) :: r => max c (maxVals r)

/-- The multiset of occurrences described by a count map: each name repeated
`count` times, in dictionary order.  This is literally the list built by the
`min_gap <= 0` branch of `_schedule_with_gap` (`result.extend([name] * c)`). -/
def expandCounts (m : List (String × Int)) : List String :=
  m.flatMap (fun p => List.replicate p.2.toNat p.1)

/-! ## Feasibility analysis (`analyze_gap_feasibility`, `explain_gap_issue`) -/

/-- The dict returned by `analyze_gap_feasibility`. -/
structure FeasibilityReport where
  feasible : Bool
  gap : Int
  total : Int
  max_count : Int
  most_songs : List String
  others : Int
  required_others : Int
  extra_others_needed : Int
  max_feasible_for_max_song : Int
deriving DecidableEq

/-- `analyze_gap_feasibility(tracks, gap)`. -/
def analyze_gap_feasibility (tracks : List (String × Int)) (gap : Int) : FeasibilityReport :=
  let counts := _count_map tracks
  if counts = [] then
    { feasible := true, gap := gap, total := 0, max_count := 0, most_songs := [],
      others := 0, required_others := 0, extra_others_needed := 0,
      max_feasible_for_max_song := 0 }
  else
    let total := sumVals counts
    let max_count := maxVals counts
    let most_songs := (counts.filter (fun p => p.2 = max_count)).map (fun p => p.1)
    if gap ≤ 0 then
      { feasible := true, gap := gap, total := total, max_count := max_count,
        most_songs := most_songs, others := total - max_count, required_others := 0,
        extra_others_needed := 0, max_feasible_for_max_song := max_count }
    else
      let others := total - max_count
      let required_others := gap * (max_count - 1)
      { feasible := decide (required_others ≤ others), gap := gap, total := total,
        max_count := max_count, most_songs := most_songs, others := others,
        required_others := required_others,
        extra_others_needed := max 0 (required_others - others),
        -- Python `//` is floor division; `Int.fdiv` is Lean's floor division
        max_feasible_for_max_song := 1 + Int.fdiv others gap }

/-- The data interpolated into the explanation string built by
`explain_gap_issue`: the bottleneck songs, the counters, and the two numeric
remediation options (`max_feasible_for_max_song` repeats kept, or
`extra_others_needed` other occurrences added). -/
structure ExplainInfo where
  gap : Int
  most_songs : List String
  max_count : Int
  total : Int
  others : Int
  required_others : Int
  max_feasible_for_max_song : Int
  extra_others_needed : Int
deriving DecidableEq

/-- `explain_gap_issue(tracks, gap)`: `none` when the gap is reported feasible,
otherwise the data of the human-readable diagnostic. -/
def explain_gap_issue (tracks : List (String × Int)) (gap : Int) : Option ExplainInfo :=
  let info := analyze_gap_feasibility tracks gap
  if info.feasible then none
  else some
    { gap := info.gap, most_songs := info.most_songs, max_count := info.max_count,
      total := info.total, others := info.others, required_others := info.required_others,
      max_feasible_for_max_song := info.max_feasible_for_max_song,
      extra_others_needed := info.extra_others_needed }

/-! ## Deterministic scheduler (`_schedule_with_gap`) -/

/-- Errors of the deterministic scheduler.  The first two model the two
`ValueError`s, `gapViolated` models the `AssertionError` of the final safety
check, and `outOfFuel` is an artifact of the fuel-indexed loop (the fuel chosen
by `_schedule_with_gap` is one more than the number of placements). -/
inductive SchedError where
  | heapEmptyWhileRemain
  | notAllPlaced
  | gapViolated
  | outOfFuel
deriving DecidableEq

/-- Python's string comparison: lexicographic on the code points (the same
order as Lean's `String.lt`, phrased so that it evaluates by `decide`). -/
def strLtB : List Char → List Char → Bool
  | [], [] => false
  | [], _ :: _ => true
  | _ :: _, [] => false
  | c :: cs, d :: ds =>
    if c.toNat < d.toNat then true
    else if d.toNat < c.toNat then false
    else strLtB cs ds

/-- `a < b` on Python strings. -/
def strLt (a b : String) : Bool := strLtB a.data b.data

/-- Insert into the list kept sorted by the Python tuple order on
`(-count, name)`; the head of the list is the element `heapq.heappop` yields. -/
def heapPush (h : List (Int × String)) (e : Int × String) : List (Int × String) :=
  match h with
  | [] => [e]
  | x :: xs =>
    if e.1 < x.1 ∨ (e.1 = x.1 ∧ strLt e.2 x.2) then e :: x :: xs else x :: heapPush xs e

/-- `heapq.heapify`: build the sorted-list heap. -/
def heapify (l : List (Int × String)) : List (Int × String) :=
  l.foldl heapPush []

/-- `while cooldown and cooldown[0][0] <= step: heappush(heap, cooldown.popleft())`.
Cooldown entries are `(ready_step, -count_remaining, name)`. -/
def drainCooldown (step : Int) (heap : List (Int × String)) :
    List (Int × Int × String) → List (Int × String) × List (Int × Int × String)
  | [] => (heap, [])
  | (r, negc, nm) :: rest =>
    if r ≤ step then drainCooldown step (heapPush heap (negc, nm)) rest
    else (heap, (r, negc, nm) :: rest)

/-- `last[s]` for the position dict of the gap scan. -/
def lookupPos (m : List (String × Int)) (s : String) : Option Int :=
  (m.find? (fun p => p.1 = s)).map (fun p => p.2)

/-- `last[s] = i`: dict assignment, represented as remove-then-append (it
denotes the same key-to-value map as Python's in-place update). -/
def setPos (m : List (String × Int)) (s : String) (i : Int) : List (String × Int) :=
  m.filter (fun q => ¬ q.1 = s) ++ [(s, i)]

/-- The dict-based gap scan used both by the final safety check of
`_schedule_with_gap` and by `valid_all` inside
`_randomize_schedule_preserving_gap`: walk the list keeping the last position
of each name, failing when `i - last[s] - 1 < min_gap`.  `last` is the
position dict, `i` the current index. -/
def gapScan (min_gap : Int) : List String → List (String × Int) → Int → Bool
  | [], _, _ => true
  | s :: rest, last, i =>
    match lookupPos last s with
    | some p =>
      if i - p - 1 < min_gap then false
      else gapScan min_gap rest (setPos last s i) (i + 1)
    | none => gapScan min_gap rest (setPos last s i) (i + 1)

/-- `valid_all` / the safety check of `_schedule_with_gap`. -/
def valid_all (l : List String) (min_gap : Int) : Bool :=
  gapScan min_gap l [] 0

/-- The `while heap or cooldown` loop of `_schedule_with_gap`. -/
def schedLoop (min_gap total : Int) :
    Nat → List (Int × String) → List (Int × Int × String) → List String → Int →
    Except SchedError (List String)
  | 0, _, _, _, _ => .error .outOfFuel
  | Nat.succ fuel, heap, cd, result, step =>
    if heap = [] ∧ cd = [] then .ok result
    else
      match drainCooldown step heap cd with
      | (heap', cd') =>
        match heap' with
        | [] =>
          -- nothing to place, but some songs still pending
          if (result.length : Int) ≠ total then .error .heapEmptyWhileRemain
          else .ok result   -- `break`, falling through to the post-loop checks
        | (negc, name) :: heapRest =>
          let count_left := -negc - 1
          let result' := result ++ [name]
          let step' := step + 1
          if count_left > 0 then
            schedLoop min_gap total fuel heapRest
              (cd' ++ [(step' + min_gap, -count_left, name)]) result' step'
          else
            schedLoop min_gap total fuel heapRest cd' result' step'

/-- `_schedule_with_gap(tracks, min_gap)`.  The Python locals `total` and
`heap` are written out inline (`total = sum(counts.values())`,
`heap = heapify([(-c, name) ...])`). -/
def _schedule_with_gap (tracks : List (String × Int)) (min_gap : Int) :
    Except SchedError (List String) :=
  let counts := _count_map tracks
  if counts = [] then .ok []
  else if min_gap ≤ 0 then .ok (expandCounts counts)
  else
    match schedLoop min_gap (sumVals counts) ((sumVals counts).toNat + 1)
        (heapify (counts.map (fun p => (-p.2, p.1)))) [] [] 0 with
    | .error e => .error e
    | .ok result =>
      if (result.length : Int) ≠ sumVals counts then .error .notAllPlaced
      else if min_gap > 0 ∧ valid_all result min_gap = false then .error .gapViolated
      else .ok result

/-! ## Randomization layer (`_randomize_schedule_preserving_gap`) -/

/-- `l` with the entries at `i` and `j` exchanged (`res[i], res[j] = res[j], res[i]`);
identity when an index is out of range (`randrange(n)` never produces one). -/
def listSwap (l : List String) (i j : Nat) : List String :=
  match l.get? i, l.get? j with
  | some a, some b => (l.set i b).set j a
  | _, _ => l

/-- One iteration of the swap loop: skip when `i == j`, otherwise swap and
revert unless the whole sequence still passes `valid_all`.  (The Python code
mutates and un-mutates `res`; the net effect of one iteration on the value of
`res` is this function.) -/
def swapStep (min_gap : Int) (res : List String) (d : Nat × Nat) : List String :=
  if d.1 = d.2 then res
  else
    let res2 := listSwap res d.1 d.2
    if valid_all res2 min_gap then res2 else res

/-- Modelled from the spec: the Order Randomizer draws its indices from a
"seedable pseudo-random source (explicit seed → fully reproducible output)".
The Python implementation delegates to `random.Random(seed).randrange(n)`
(the standard library's Mersenne Twister, outside this repository), which is
modelled here as a deterministic linear-congruential stream of the seed,
reduced mod `n` exactly as `randrange(n)` guarantees values in `[0, n)`. -/
def lcgStep (s : Nat) : Nat := (s * 1103515245 + 12345) % 4294967296

/-- `k` pairs `(randrange(n), randrange(n))` drawn from the modelled stream. -/
def rngPairsAux : Nat → Nat → Nat → List (Nat × Nat)
  | 0, _, _ => []
  | Nat.succ k, s, n =>
    let s1 := lcgStep s
    let s2 := lcgStep s1
    (s1 % n, s2 % n) :: rngPairsAux k s2 n

/-- The sequence of `passes * n = 2 * n` index pairs drawn by
`_randomize_schedule_preserving_gap` for a schedule of length `n`. -/
def rngDraws (seed : Int) (n : Nat) : List (Nat × Nat) :=
  rngPairsAux (2 * n) (seed.toNat % 4294967296) n

/-- `_randomize_schedule_preserving_gap(order, min_gap, seed, passes=2)`, with
the random draws passed explicitly: `order[:]` when `min_gap <= 0` or
`len(order) <= 2`, otherwise the `passes * n` checked swaps. -/
def _randomize_schedule_preserving_gap (order : List String) (min_gap : Int)
    (draws : List (Nat × Nat)) : List String :=
  if min_gap ≤ 0 ∨ order.length ≤ 2 then order
  else draws.foldl (swapStep min_gap) order

/-! ## Public API (`generate_round_robin`) -/

/-- Failures of `generate_round_robin`: `noTracksToSchedule` and
`cannotSchedule` model the two `raise ValueError(...)` at the end
(`cannotSchedule none` is the bare "Cannot schedule playlist with given gaps."
message raised when `explain_gap_issue` returned `None`, `cannotSchedule
(some info)` the full diagnostic), and `assertionError` models the
`AssertionError` of the scheduler's safety check, which `except ValueError`
does not catch. -/
inductive GenError where
  | noTracksToSchedule
  | cannotSchedule (info : Option ExplainInfo)
  | assertionError
deriving DecidableEq

/-- The `while gap >= min_allowed_gap` loop of `generate_round_robin`.
`Nat.succ k` means the current candidate gap is `min_allowed + k`; fuel `0`
means the loop has exhausted the range. -/
def genLoop (tracks : List (String × Int)) (min_allowed : Int) (randomize : Bool)
    (seed : Int) : Nat → Option FeasibilityReport → Except GenError (List String)
  | 0, lastIssue =>
    match lastIssue with
    | none => .error .noTracksToSchedule
    | some info => .error (.cannotSchedule (explain_gap_issue tracks info.gap))
  | Nat.succ k, _ =>
    let gap := min_allowed + (k : Int)
    let info := analyze_gap_feasibility tracks gap
    if info.feasible = false then
      genLoop tracks min_allowed randomize seed k (some info)
    else
      match _schedule_with_gap tracks gap with
      | .ok base =>
        if randomize then
          .ok (_randomize_schedule_preserving_gap base gap (rngDraws seed base.length))
        else .ok base
      | .error .gapViolated => .error .assertionError
      | .error _ =>
        -- `except ValueError`: retry with the next smaller gap
        genLoop tracks min_allowed randomize seed k (some (analyze_gap_feasibility tracks gap))

/-- `generate_round_robin(tracks, preferred_gap, min_allowed_gap, randomize, seed)`. -/
def generate_round_robin (tracks : List (String × Int)) (preferred_gap min_allowed_gap : Int)
    (randomize : Bool) (seed : Int) : Except GenError (List String) :=
  let p := if preferred_gap < min_allowed_gap then min_allowed_gap else preferred_gap
  let m := if preferred_gap < min_allowed_gap then preferred_gap else min_allowed_gap
  genLoop tracks m randomize seed (p - m + 1).toNat none

/-! ## Occurrence conservation of the deterministic scheduler -/

/-- The occurrences still held by the heap: each entry `(-c, name)` stands for
`c` pending occurrences of `name`. -/
def heapOcc (h : List (Int × String)) : List String :=
  h.flatMap (fun e => List.replicate (-e.1).toNat e.2)

/-- The occurrences still held by the cooldown queue. -/
def cdOcc (cd : List (Int × Int × String)) : List String :=
  cd.flatMap (fun e => List.replicate (-e.2.1).toNat e.2.2)

theorem heapPush_perm (h : List (Int × String)) (e : Int × String) :
    (heapPush h e).Perm (e :: h) := by
  induction h with
  | nil => exact List.Perm.refl _
  | cons x xs ih =>
    unfold heapPush
    by_cases hc : e.1 < x.1 ∨ (e.1 = x.1 ∧ strLt e.2 x.2)
    · rw [if_pos hc]
    · rw [if_neg hc]
      exact (ih.cons x).trans (List.Perm.swap e x xs)

theorem heapOcc_heapPush (h : List (Int × String)) (e : Int × String) :
    (heapOcc (heapPush h e)).Perm (List.replicate (-e.1).toNat e.2 ++ heapOcc h) := by
  have := List.Perm.flatMap_right (fun e : Int × String => List.replicate (-e.1).toNat e.2)
    (heapPush_perm h e)
  simpa [heapOcc, List.flatMap_cons] using this

theorem heapPush_mem {h : List (Int × String)} {e f : Int × String}
    (hf : f ∈ heapPush h e) : f = e ∨ f ∈ h := by
  have := (heapPush_perm h e).mem_iff.mp hf
  simpa using this

/-- `drainCooldown` preserves the pending occurrences (as a multiset), their
total length, and the positivity of all pending counts. -/
theorem drainCooldown_spec (step : Int) :
    ∀ (cd : List (Int × Int × String)) (heap : List (Int × String)),
      (heapOcc (drainCooldown step heap cd).1 ++ cdOcc (drainCooldown step heap cd).2).Perm
        (heapOcc heap ++ cdOcc cd) := by
  intro cd
  induction cd with
  | nil => intro heap; simp [drainCooldown, cdOcc]
  | cons e rest ih =>
    intro heap
    rcases e with ⟨r, negc, nm⟩
    unfold drainCooldown
    by_cases hr : r ≤ step
    · rw [if_pos hr]
      have ihp := ih (heapPush heap (negc, nm))
      refine ihp.trans ?_
      have hpush := heapOcc_heapPush heap (negc, nm)
      have h1 : (heapOcc (heapPush heap (negc, nm)) ++ cdOcc rest).Perm
          ((List.replicate (-negc).toNat nm ++ heapOcc heap) ++ cdOcc rest) :=
        hpush.append (List.Perm.refl _)
      refine h1.trans ?_
      rw [List.perm_iff_count]
      intro a
      simp [cdOcc, List.flatMap_cons, List.count_append]
      omega
    · rw [if_neg hr]

theorem drainCooldown_pos (step : Int) :
    ∀ (cd : List (Int × Int × String)) (heap : List (Int × String)),
      (∀ e ∈ heap, e.1 ≤ -1) → (∀ e ∈ cd, e.2.1 ≤ -1) →
      (∀ e ∈ (drainCooldown step heap cd).1, e.1 ≤ -1) ∧
      (∀ e ∈ (drainCooldown step heap cd).2, e.2.1 ≤ -1) := by
  intro cd
  induction cd with
  | nil => intro heap hh _; exact ⟨hh, by simp [drainCooldown]⟩
  | cons e rest ih =>
    intro heap hh hc
    rcases e with ⟨r, negc, nm⟩
    unfold drainCooldown
    by_cases hr : r ≤ step
    · rw [if_pos hr]
      refine ih (heapPush heap (negc, nm)) ?_ ?_
      · intro f hf
        rcases heapPush_mem hf with h | h
        · rw [h]
          exact hc (r, negc, nm) (by simp)
        · exact hh f h
      · intro f hf
        exact hc f (List.mem_cons_of_mem _ hf)
    · rw [if_neg hr]
      exact ⟨hh, hc⟩

/-- The conservation invariant of the scheduling loop: a successful run emits
exactly the occurrences held in `result`, the heap and the cooldown queue. -/
theorem schedLoop_perm (g total : Int) :
    ∀ (fuel : Nat) (heap : List (Int × String)) (cd : List (Int × Int × String))
      (result : List String) (step : Int) (res : List String),
      (∀ e ∈ heap, e.1 ≤ -1) → (∀ e ∈ cd, e.2.1 ≤ -1) →
      ((result.length : Int) + ((heapOcc heap).length : Int) + ((cdOcc cd).length : Int)
        = total) →
      schedLoop g total fuel heap cd result step = .ok res →
      res.Perm (result ++ heapOcc heap ++ cdOcc cd) := by
  intro fuel
  induction fuel with
  | zero => intro heap cd result step res _ _ _ hrun; cases hrun
  | succ fuel ih =>
    intro heap cd result step res hph hpc hlen hrun
    unfold schedLoop at hrun
    by_cases hterm : heap = [] ∧ cd = []
    · rw [if_pos hterm] at hrun
      injection hrun with hrun
      rw [← hrun, hterm.1, hterm.2]
      simp [heapOcc, cdOcc]
    · rw [if_neg hterm] at hrun
      rcases hdrain : drainCooldown step heap cd with ⟨heap', cd'⟩
      rw [hdrain] at hrun
      have hperm0 : (heapOcc heap' ++ cdOcc cd').Perm (heapOcc heap ++ cdOcc cd) := by
        have := drainCooldown_spec step cd heap
        rw [hdrain] at this
        exact this
      have hpos' := drainCooldown_pos step cd heap hph hpc
      rw [hdrain] at hpos'
      obtain ⟨hph', hpc'⟩ := hpos'
      have hlen' : (result.length : Int) + ((heapOcc heap').length : Int) +
          ((cdOcc cd').length : Int) = total := by
        have := hperm0.length_eq
        rw [List.length_append, List.length_append] at this
        omega
      cases heap' with
      | nil =>
        by_cases hne : (result.length : Int) ≠ total
        · rw [if_pos hne] at hrun; cases hrun
        · rw [if_neg hne] at hrun
          injection hrun with hrun
          push_neg at hne
          have hcd0 : (cdOcc cd').length = 0 := by
            have h0 : (heapOcc ([] : List (Int × String))).length = 0 := by
              simp [heapOcc]
            omega
          have hcdnil : cdOcc cd' = [] := List.length_eq_zero.mp hcd0
          rw [← hrun]
          have : (result ++ heapOcc ([] : List (Int × String)) ++ cdOcc cd').Perm
              (result ++ heapOcc heap ++ cdOcc cd) := by
            rw [List.append_assoc, List.append_assoc]
            exact (List.Perm.refl result).append hperm0
          refine ?_
          rw [hcdnil] at this
          simp only [heapOcc, List.flatMap_nil, List.append_nil] at this
          refine List.Perm.trans ?_ this
          simp
      | cons hd heapRest =>
        rcases hd with ⟨negc, name⟩
        have hnegc : negc ≤ -1 := hph' (negc, name) (by simp)
        have hheapocc : heapOcc ((negc, name) :: heapRest) =
            List.replicate (-negc).toNat name ++ heapOcc heapRest := by
          simp [heapOcc, List.flatMap_cons]
        simp only [] at hrun
        by_cases hcl : -negc - 1 > 0
        · rw [if_pos hcl] at hrun
          have hpcd : ∀ e ∈ cd' ++ [(step + 1 + g, -(-negc - 1), name)], e.2.1 ≤ -1 := by
            intro f hf
            rcases List.mem_append.mp hf with h | h
            · exact hpc' f h
            · rw [List.mem_singleton] at h
              rw [h]
              simp only []
              omega
          have hcdocc : cdOcc (cd' ++ [(step + 1 + g, -(-negc - 1), name)]) =
              cdOcc cd' ++ List.replicate (-negc - 1).toNat name := by
            have h2 : -(-(-negc - 1)) = -negc - 1 := by ring
            simp [cdOcc, List.flatMap_append, List.flatMap_cons, h2] <;> omega
          have hlen2 : ((result ++ [name]).length : Int) +
              ((heapOcc heapRest).length : Int) +
              ((cdOcc (cd' ++ [(step + 1 + g, -(-negc - 1), name)])).length : Int) = total := by
            rw [hcdocc]
            rw [hheapocc] at hlen'
            simp only [List.length_append, List.length_singleton,
              List.length_replicate] at hlen' ⊢
            omega
          have hrec := ih heapRest _ (result ++ [name]) (step + 1) res
            (fun f hf => hph' f (List.mem_cons_of_mem _ hf)) hpcd hlen2 hrun
          refine hrec.trans ?_
          rw [hcdocc]
          have hstep2 : (result ++ (heapOcc ((negc, name) :: heapRest) ++ cdOcc cd')).Perm
              (result ++ heapOcc heap ++ cdOcc cd) := by
            have h := (List.Perm.refl result).append hperm0
            rw [List.append_assoc]
            exact h
          refine List.Perm.trans ?_ hstep2
          have hR : List.replicate (-negc).toNat name =
              name :: List.replicate (-negc - 1).toNat name := by
            have h1 : (-negc).toNat = (-negc - 1).toNat + 1 := by omega
            rw [h1, List.replicate_succ]
          rw [hheapocc, hR]
          rw [List.perm_iff_count]
          intro a
          simp only [List.count_append, List.count_cons, List.count_nil]
          ring
        · rw [if_neg hcl] at hrun
          -- `count_left <= 0`: with `negc <= -1` this forces `negc = -1`,
          -- the last occurrence of `name`
          have hneg1 : negc = -1 := by omega
          have hone : List.replicate (-negc).toNat name = [name] := by
            rw [hneg1]
            rfl
          have hlen2 : ((result ++ [name]).length : Int) +
              ((heapOcc heapRest).length : Int) + ((cdOcc cd').length : Int) = total := by
            rw [hheapocc, hone] at hlen'
            simp only [List.length_append, List.length_singleton] at *
            omega
          have hrec := ih heapRest cd' (result ++ [name]) (step + 1) res
            (fun f hf => hph' f (List.mem_cons_of_mem _ hf)) hpc' hlen2 hrun
          refine hrec.trans ?_
          have hstep2 : (result ++ (heapOcc ((negc, name) :: heapRest) ++ cdOcc cd')).Perm
              (result ++ heapOcc heap ++ cdOcc cd) := by
            have h := (List.Perm.refl result).append hperm0
            rw [List.append_assoc]
            exact h
          refine List.Perm.trans ?_ hstep2
          rw [hheapocc, hone]
          rw [List.perm_iff_count]
          intro a
          simp only [List.count_append, List.count_cons, List.count_nil]
          ring


theorem foldl_heapPush_perm :
    ∀ (l acc : List (Int × String)), (l.foldl heapPush acc).Perm (acc ++ l)
  | [], acc => by simp
  | x :: xs, acc => by
    have ih := foldl_heapPush_perm xs (heapPush acc x)
    simp only [List.foldl_cons]
    refine ih.trans ?_
    have h1 : (heapPush acc x ++ xs).Perm ((x :: acc) ++ xs) :=
      (heapPush_perm acc x).append (List.Perm.refl xs)
    refine h1.trans ?_
    exact List.perm_middle.symm

theorem heapify_perm (l : List (Int × String)) : (heapify l).Perm l := by
  have := foldl_heapPush_perm l []
  simpa [heapify] using this

theorem heapOcc_map_counts :
    ∀ m : List (String × Int),
      heapOcc (m.map (fun p => (-p.2, p.1))) = expandCounts m
  | [] => rfl
  | q :: t => by
    have ih := heapOcc_map_counts t
    simp only [heapOcc, expandCounts, List.map_cons, List.flatMap_cons] at ih ⊢
    rw [ih, neg_neg]


/-! ## Specification-level predicates -/

/-- The gap invariant as the spec states it: for every item appearing at
positions `i < j` with no other occurrence of that item strictly between them,
`j - i - 1 ≥ g`. -/
def gapInvariant (l : List String) (g : Int) : Prop :=
  ∀ (i j : Nat) (x : String), i < j → l.get? i = some x → l.get? j = some x →
    (∀ k, i < k → k < j → l.get? k ≠ some x) → (j : Int) - i - 1 ≥ g

/-- The all-pairs form of the gap invariant: any two occurrences of the same
item are at least `g + 1` positions apart. -/
def pairwiseSpaced (l : List String) (g : Int) : Prop :=
  ∀ (i j : Nat) (x : String), i < j → l.get? i = some x → l.get? j = some x →
    (j : Int) - i - 1 ≥ g

/-- Decidable, index-bounded form of `pairwiseSpaced`. -/
def pairwiseSpacedB (l : List String) (g : Int) : Bool :=
  decide (∀ i : Fin l.length, ∀ j : Fin l.length, (i : Nat) < (j : Nat) →
    l.get i = l.get j → (j : Int) - (i : Int) - 1 ≥ g)

/-! ## The randomizer's swaps permute and preserve validity -/

theorem cons_set_perm {α : Type _} (t : List α) :
    ∀ (j : Nat) (x b : α), t.get? j = some b → (b :: t.set j x).Perm (x :: t) := by
  induction t with
  | nil => intro j x b h; simp at h
  | cons a t ih =>
    intro j x b h
    cases j with
    | zero =>
      simp only [List.get?_cons_zero, Option.some.injEq] at h
      rw [h]
      exact List.Perm.swap x b t
    | succ j =>
      simp only [List.get?_cons_succ] at h
      have ihj := ih j x b h
      show (b :: a :: t.set j x).Perm (x :: a :: t)
      exact (List.Perm.swap a b _).trans ((ihj.cons a).trans (List.Perm.swap x a t))

theorem set_set_perm {α : Type _} (l : List α) :
    ∀ (i j : Nat) (a b : α), l.get? i = some a → l.get? j = some b →
      ((l.set i b).set j a).Perm l := by
  induction l with
  | nil => intro i j a b h1 _; simp at h1
  | cons x t ih =>
    intro i j a b h1 h2
    cases i with
    | zero =>
      simp only [List.get?_cons_zero, Option.some.injEq] at h1
      cases j with
      | zero =>
        simp only [List.get?_cons_zero, Option.some.injEq] at h2
        rw [← h1]
        exact List.Perm.refl _
      | succ j =>
        simp only [List.get?_cons_succ] at h2
        show (b :: t.set j a).Perm (x :: t)
        rw [h1]
        exact cons_set_perm t j a b h2
    | succ i =>
      simp only [List.get?_cons_succ] at h1
      cases j with
      | zero =>
        simp only [List.get?_cons_zero, Option.some.injEq] at h2
        show (a :: t.set i b).Perm (x :: t)
        rw [h2]
        exact cons_set_perm t i b a h1
      | succ j =>
        simp only [List.get?_cons_succ] at h2
        exact (ih i j a b h1 h2).cons x

theorem listSwap_perm (l : List String) (i j : Nat) : (listSwap l i j).Perm l := by
  unfold listSwap
  cases h1 : l.get? i with
  | none => exact List.Perm.refl l
  | some a =>
    cases h2 : l.get? j with
    | none => exact List.Perm.refl l
    | some b => exact set_set_perm l i j a b h1 h2

theorem swapStep_perm (g : Int) (res : List String) (d : Nat × Nat) :
    (swapStep g res d).Perm res := by
  unfold swapStep
  by_cases h : d.1 = d.2
  · simp [h]
  · simp only [h, if_false]
    by_cases hv : valid_all (listSwap res d.1 d.2) g = true
    · simp [hv, listSwap_perm]
    · simp [hv]

theorem swapStep_valid (g : Int) (res : List String) (d : Nat × Nat)
    (h : valid_all res g = true) : valid_all (swapStep g res d) g = true := by
  unfold swapStep
  by_cases he : d.1 = d.2
  · simpa [he]
  · simp only [he, if_false]
    by_cases hv : valid_all (listSwap res d.1 d.2) g = true
    · simp [hv]
    · simpa [hv]

theorem foldl_swapStep_perm (g : Int) :
    ∀ (draws : List (Nat × Nat)) (res : List String),
      (draws.foldl (swapStep g) res).Perm res
  | [], res => List.Perm.refl res
  | d :: draws, res => by
    simpa using (foldl_swapStep_perm g draws (swapStep g res d)).trans
      (swapStep_perm g res d)

theorem foldl_swapStep_valid (g : Int) :
    ∀ (draws : List (Nat × Nat)) (res : List String),
      valid_all res g = true → valid_all (draws.foldl (swapStep g) res) g = true
  | [], _, h => h
  | d :: draws, res, h => by
    simpa using foldl_swapStep_valid g draws (swapStep g res d) (swapStep_valid g res d h)

theorem randomize_perm (order : List String) (g : Int) (draws : List (Nat × Nat)) :
    (_randomize_schedule_preserving_gap order g draws).Perm order := by
  unfold _randomize_schedule_preserving_gap
  by_cases h : g ≤ 0 ∨ order.length ≤ 2
  · simp [h]
  · simpa [h] using foldl_swapStep_perm g draws order

theorem randomize_valid (order : List String) (g : Int) (draws : List (Nat × Nat))
    (h : valid_all order g = true) :
    valid_all (_randomize_schedule_preserving_gap order g draws) g = true := by
  unfold _randomize_schedule_preserving_gap
  by_cases hg : g ≤ 0 ∨ order.length ≤ 2
  · simpa [hg]
  · simpa [hg] using foldl_swapStep_valid g draws order h

/-! ## Soundness of the gap scan: `valid_all` implies the spec's invariant -/

theorem filter_find?_ne_key (m : List (String × Int)) (s x : String) (hx : ¬ x = s) :
    (m.filter (fun q => ¬ q.1 = s)).find? (fun p => p.1 = x) =
      m.find? (fun p => p.1 = x) := by
  induction m with
  | nil => simp
  | cons q t ih =>
    by_cases hq : q.1 = x
    · have hqs : ¬ q.1 = s := by rw [hq]; exact hx
      rw [List.filter_cons_of_pos (by simpa using hqs)]
      rw [List.find?_cons_of_pos _ (by simpa using hq),
        List.find?_cons_of_pos _ (by simpa using hq)]
    · by_cases hqs : q.1 = s
      · rw [List.filter_cons_of_neg (by simpa using hqs)]
        rw [List.find?_cons_of_neg _ (by simpa using hq)]
        exact ih
      · rw [List.filter_cons_of_pos (by simpa using hqs)]
        rw [List.find?_cons_of_neg _ (by simpa using hq),
          List.find?_cons_of_neg _ (by simpa using hq)]
        exact ih

theorem lookupPos_setPos (m : List (String × Int)) (s : String) (i : Int) (x : String) :
    lookupPos (setPos m s i) x = if x = s then some i else lookupPos m x := by
  by_cases hx : x = s
  · rw [if_pos hx]
    subst hx
    unfold lookupPos setPos
    rw [List.find?_append]
    have hnone : (m.filter (fun q => ¬ q.1 = x)).find? (fun p => p.1 = x) = none := by
      rw [List.find?_eq_none]
      intro p hp
      have hmem : ¬ p.1 = x := by simpa using List.of_mem_filter hp
      simpa using hmem
    rw [hnone]
    simp
  · rw [if_neg hx]
    unfold lookupPos setPos
    rw [List.find?_append, filter_find?_ne_key m s x hx]
    have hsx : ¬ s = x := fun h => hx h.symm
    cases hf : m.find? (fun p => p.1 = x) with
    | none => simp [List.find?, hsx]
    | some p => simp

theorem gapScan_sound (g : Int) :
    ∀ (rest : List String) (last : List (String × Int)) (i : Int),
      (∀ x p, lookupPos last x = some p → p < i) →
      gapScan g rest last i = true →
      (∀ (j : Nat) (x : String) (p : Int), rest.get? j = some x →
          lookupPos last x = some p → i + (j : Int) - p ≥ g + 1) ∧
      (∀ (j1 j2 : Nat) (x : String), j1 < j2 → rest.get? j1 = some x →
          rest.get? j2 = some x → (j2 : Int) - (j1 : Int) ≥ g + 1) := by
  intro rest
  induction rest with
  | nil =>
    intro last i _ _
    constructor
    · intro j x p hj; simp at hj
    · intro j1 j2 x _ hj1; simp at hj1
  | cons s rest ih =>
    intro last i hbound hscan
    -- extract the recursive call and (in the `some` branch) the passed check
    have hstep : (∀ p, lookupPos last s = some p → i - p - 1 ≥ g) ∧
        gapScan g rest (setPos last s i) (i + 1) = true := by
      unfold gapScan at hscan
      split at hscan
      next p hl =>
        by_cases hc : i - p - 1 < g
        · rw [if_pos hc] at hscan; cases hscan
        · rw [if_neg hc] at hscan
          refine ⟨?_, hscan⟩
          intro p' hp'
          rw [hl] at hp'
          injection hp' with hp'
          omega
      next hl =>
        refine ⟨?_, hscan⟩
        intro p hp
        rw [hl] at hp
        cases hp
    obtain ⟨hcheck, hscan'⟩ := hstep
    have hbound' : ∀ x p, lookupPos (setPos last s i) x = some p → p < i + 1 := by
      intro x p hp
      rw [lookupPos_setPos] at hp
      by_cases hx : x = s
      · rw [if_pos hx] at hp; injection hp with hp; omega
      · rw [if_neg hx] at hp; have := hbound x p hp; omega
    obtain ⟨ihA, ihB⟩ := ih (setPos last s i) (i + 1) hbound' hscan'
    constructor
    · -- pairs between the position dict and the remaining list
      intro j x p hj hx
      cases j with
      | zero =>
        simp only [List.get?_cons_zero, Option.some.injEq] at hj
        subst hj
        have := hcheck p hx
        push_cast
        omega
      | succ j' =>
        simp only [List.get?_cons_succ] at hj
        by_cases hxs : x = s
        · have hl' : lookupPos (setPos last s i) x = some i := by
            rw [lookupPos_setPos, if_pos hxs]
          have hA := ihA j' x i hj hl'
          have hp := hbound x p hx
          push_cast at hA ⊢
          omega
        · have hl' : lookupPos (setPos last s i) x = some p := by
            rw [lookupPos_setPos, if_neg hxs]; exact hx
          have hA := ihA j' x p hj hl'
          push_cast at hA ⊢
          omega
    · -- pairs inside the remaining list
      intro j1 j2 x hlt hj1 hj2
      cases j1 with
      | zero =>
        simp only [List.get?_cons_zero, Option.some.injEq] at hj1
        cases j2 with
        | zero => omega
        | succ j2' =>
          simp only [List.get?_cons_succ] at hj2
          have hl' : lookupPos (setPos last s i) x = some i := by
            rw [lookupPos_setPos, if_pos hj1.symm]
          have hA := ihA j2' x i hj2 hl'
          push_cast at hA ⊢
          omega
      | succ j1' =>
        cases j2 with
        | zero => omega
        | succ j2' =>
          simp only [List.get?_cons_succ] at hj1 hj2
          have hB := ihB j1' j2' x (by omega) hj1 hj2
          push_cast at hB ⊢
          omega

theorem pairwiseSpaced_of_valid_all (l : List String) (g : Int)
    (h : valid_all l g = true) : pairwiseSpaced l g := by
  have hbound : ∀ x p, lookupPos ([] : List (String × Int)) x = some p → p < 0 := by
    intro x p hp; simp [lookupPos] at hp
  obtain ⟨_, hB⟩ := gapScan_sound g l [] 0 hbound h
  intro i j x hij hi hj
  have := hB i j x hij hi hj
  omega

theorem gapInvariant_of_pairwiseSpaced (l : List String) (g : Int)
    (h : pairwiseSpaced l g) : gapInvariant l g := by
  intro i j x hij hi hj _
  exact h i j x hij hi hj

theorem pairwiseSpaced_of_gapInvariant (l : List String) (g : Int)
    (h : gapInvariant l g) : pairwiseSpaced l g := by
  intro i j x hij hi hj
  by_cases hg : g ≤ 0
  · have : (i : Int) < (j : Int) := by exact_mod_cast hij
    omega
  · push_neg at hg
    have main : ∀ d i' j' : Nat, j' - i' ≤ d → i' < j' → l.get? i' = some x →
        l.get? j' = some x → (j' : Int) - (i' : Int) - 1 ≥ g := by
      intro d
      induction d with
      | zero => intro i' j' hle hij' _ _; omega
      | succ d ihd =>
        intro i' j' hle hij' hi' hj'
        by_cases hex : ∃ k, i' < k ∧ k < j' ∧ l.get? k = some x
        · obtain ⟨k, hik, hkj, hk⟩ := hex
          have h1 := ihd i' k (by omega) hik hi' hk
          have h2 := ihd k j' (by omega) hkj hk hj'
          omega
        · push_neg at hex
          exact h i' j' x hij' hi' hj' (fun k hik hkj => hex k hik hkj)
    exact main (j - i) i j (le_refl _) hij hi hj

/-! ## Counting: a spaced list is long -/

/-- The positions at which `x` occurs in `l`, in increasing order. -/
def occPositions (x : String) : List String → List Nat
  | [] => []
  | a :: t => (if a = x then [0] else []) ++ (occPositions x t).map (fun n => n + 1)

theorem occPositions_length (x : String) :
    ∀ l : List String, (occPositions x l).length = l.count x
  | [] => rfl
  | a :: t => by
    unfold occPositions
    by_cases h : a = x
    · simp [h, occPositions_length x t, List.count_cons]
    · simp [h, occPositions_length x t, List.count_cons]

theorem occPositions_get (x : String) :
    ∀ (l : List String) (p : Nat), p ∈ occPositions x l → l.get? p = some x
  | [], p, hp => by simp [occPositions] at hp
  | a :: t, p, hp => by
    unfold occPositions at hp
    by_cases h : a = x
    · rw [if_pos h, List.singleton_append] at hp
      rcases List.mem_cons.mp hp with h0 | hmem
      · rw [h0]; simpa using h
      · obtain ⟨n, hn, rfl⟩ := List.mem_map.mp hmem
        simpa using occPositions_get x t n hn
    · rw [if_neg h, List.nil_append] at hp
      obtain ⟨n, hn, rfl⟩ := List.mem_map.mp hp
      simpa using occPositions_get x t n hn

theorem occPositions_chain (x : String) :
    ∀ l : List String, List.Chain' (fun a b => a < b) (occPositions x l)
  | [] => List.chain'_nil
  | a :: t => by
    unfold occPositions
    have ht := occPositions_chain x t
    have hmap : List.Chain' (fun a b => a < b) ((occPositions x t).map (fun n => n + 1)) := by
      rw [List.chain'_map]
      exact ht.imp (fun a b h => by omega)
    by_cases h : a = x
    · rw [if_pos h, List.singleton_append]
      rw [List.chain'_cons']
      refine ⟨?_, hmap⟩
      intro y hy
      cases hm : (occPositions x t).map (fun n => n + 1) with
      | nil => rw [hm] at hy; simp at hy
      | cons b bs =>
        rw [hm] at hy
        simp only [List.head?_cons, Option.mem_def, Option.some.injEq] at hy
        have hb : b ∈ (occPositions x t).map (fun n => n + 1) := by
          rw [hm]; exact List.mem_cons_self b bs
        obtain ⟨n, _, hn⟩ := List.mem_map.mp hb
        omega
    · rw [if_neg h, List.nil_append]
      exact hmap

theorem spaced_chain_bound (l : List String) (g : Int) (x : String)
    (hps : pairwiseSpaced l g) :
    ∀ (ps : List Nat) (p : Nat), List.Chain' (fun a b => a < b) (p :: ps) →
      (∀ q ∈ p :: ps, l.get? q = some x) →
      (((p :: ps).getLast (by simp) : Nat) : Int) ≥ (p : Int) + (ps.length : Int) * (g + 1) := by
  intro ps
  induction ps with
  | nil => intro p _ _; simp
  | cons q rest ih =>
    intro p hchain hmem
    obtain ⟨hpq, hchain'⟩ := List.chain'_cons.mp hchain
    have hspace := hps p q x hpq (hmem p (by simp)) (hmem q (by simp))
    have hlast := ih q hchain' (fun r hr => hmem r (List.mem_cons_of_mem p hr))
    rw [List.getLast_cons (by simp : q :: rest ≠ [])]
    have hexp : ((rest.length : Int) + 1) * (g + 1) = (rest.length : Int) * (g + 1) + (g + 1) := by
      ring
    have hq : (q : Int) ≥ (p : Int) + g + 1 := by
      have : (p : Int) < (q : Int) := by exact_mod_cast hpq
      omega
    simp only [List.length_cons]
    push_cast
    push_cast at hlast
    linarith [hlast, hq, hexp]

theorem length_ge_of_spaced_count (l : List String) (g : Int) (x : String)
    (hps : pairwiseSpaced l g) (hk : 1 ≤ l.count x) :
    (l.length : Int) ≥ ((l.count x : Int) - 1) * (g + 1) + 1 := by
  cases hocc : occPositions x l with
  | nil =>
    have := occPositions_length x l
    rw [hocc] at this
    simp at this
    omega
  | cons p ps =>
    have hchain := occPositions_chain x l
    rw [hocc] at hchain
    have hmem : ∀ q ∈ p :: ps, l.get? q = some x := by
      intro q hq
      exact occPositions_get x l q (by rw [hocc]; exact hq)
    have hbound := spaced_chain_bound l g x hps ps p hchain hmem
    have hlastmem : (p :: ps).getLast (by simp) ∈ p :: ps := List.getLast_mem _
    have hlastget := hmem _ hlastmem
    obtain ⟨hlt, _⟩ := List.get?_eq_some.mp hlastget
    have hcnt : l.count x = ps.length + 1 := by
      have := occPositions_length x l
      rw [hocc] at this
      simpa using this.symm
    rw [hcnt]
    have hlen : ((p :: ps).getLast (by simp) : Int) < (l.length : Int) := by
      exact_mod_cast hlt
    push_cast
    nlinarith [hbound, hlen]

/-- In a spaced list, each item that occurs `k` times has an occurrence at
position at least `(k - 1) * (g + 1)`. -/
theorem exists_late_occurrence (l : List String) (g : Int) (x : String)
    (hps : pairwiseSpaced l g) (hk : 1 ≤ l.count x) :
    ∃ q : Nat, q < l.length ∧ l.get? q = some x ∧
      (q : Int) ≥ ((l.count x : Int) - 1) * (g + 1) := by
  cases hocc : occPositions x l with
  | nil =>
    exfalso
    have := occPositions_length x l
    rw [hocc] at this
    simp at this
    omega
  | cons p ps =>
    have hchain := occPositions_chain x l
    rw [hocc] at hchain
    have hmem : ∀ q ∈ p :: ps, l.get? q = some x := fun q hq =>
      occPositions_get x l q (by rw [hocc]; exact hq)
    have hbound := spaced_chain_bound l g x hps ps p hchain hmem
    have hlastmem := List.getLast_mem (l := p :: ps) (by simp)
    refine ⟨(p :: ps).getLast (by simp), ?_, hmem _ hlastmem, ?_⟩
    · obtain ⟨hlt, _⟩ := List.get?_eq_some.mp (hmem _ hlastmem)
      exact hlt
    · have hcnt : l.count x = ps.length + 1 := by
        have := occPositions_length x l
        rw [hocc] at this
        simpa using this.symm
      rw [hcnt]
      push_cast
      nlinarith [hbound]

/-! ## Properties of the count map -/

theorem addCount_fst (m : List (String × Int)) (name : String) (c : Int) :
    (addCount m name c).map Prod.fst =
      if m.any (fun p => p.1 = name) then m.map Prod.fst else m.map Prod.fst ++ [name] := by
  unfold addCount
  by_cases h : m.any (fun p => p.1 = name)
  · rw [if_pos h, if_pos h, List.map_map]
    congr 1
    funext p
    by_cases hp : p.1 = name <;> simp [hp]
  · rw [if_neg h, if_neg h]
    simp

theorem addCount_keys_nodup (m : List (String × Int)) (name : String) (c : Int)
    (h : (m.map Prod.fst).Nodup) : ((addCount m name c).map Prod.fst).Nodup := by
  rw [addCount_fst]
  by_cases hmem : m.any (fun p => p.1 = name)
  · rw [if_pos hmem]; exact h
  · rw [if_neg hmem]
    rw [List.nodup_append]
    refine ⟨h, List.nodup_singleton name, ?_⟩
    intro a ha hb
    rw [List.mem_singleton] at hb
    obtain ⟨p, hp, hpa⟩ := List.mem_map.mp ha
    rw [List.any_eq_true] at hmem
    push_neg at hmem
    exact absurd (by rw [hpa, hb]; simp : decide (p.1 = name) = true) (by simpa using hmem p hp)

theorem addCount_pos (m : List (String × Int)) (name : String) (c : Int)
    (hm : ∀ p ∈ m, 0 < p.2) (hc : 0 < c) : ∀ p ∈ addCount m name c, 0 < p.2 := by
  unfold addCount
  by_cases h : m.any (fun p => p.1 = name)
  · rw [if_pos h]
    intro p hp
    obtain ⟨q, hq, hqp⟩ := List.mem_map.mp hp
    by_cases hqn : q.1 = name
    · rw [if_pos hqn] at hqp
      rw [← hqp]
      have := hm q hq
      simp only []
      omega
    · rw [if_neg hqn] at hqp
      rw [← hqp]
      exact hm q hq
  · rw [if_neg h]
    intro p hp
    rcases List.mem_append.mp hp with hp | hp
    · exact hm p hp
    · rw [List.mem_singleton] at hp
      rw [hp]
      exact hc

theorem count_map_keys_nodup (tracks : List (String × Int)) :
    ((_count_map tracks).map Prod.fst).Nodup := by
  unfold _count_map
  suffices h : ∀ (ts : List (String × Int)) (m : List (String × Int)),
      (m.map Prod.fst).Nodup →
      ((ts.foldl (fun m t => if t.2 > 0 then addCount m t.1 t.2 else m) m).map Prod.fst).Nodup by
    exact h tracks [] (by simp)
  intro ts
  induction ts with
  | nil => intro m hm; exact hm
  | cons t ts ih =>
    intro m hm
    simp only [List.foldl_cons]
    by_cases ht : t.2 > 0
    · rw [if_pos ht]
      exact ih _ (addCount_keys_nodup m t.1 t.2 hm)
    · rw [if_neg ht]
      exact ih _ hm

theorem count_map_pos (tracks : List (String × Int)) :
    ∀ p ∈ _count_map tracks, 0 < p.2 := by
  unfold _count_map
  suffices h : ∀ (ts : List (String × Int)) (m : List (String × Int)),
      (∀ p ∈ m, 0 < p.2) →
      ∀ p ∈ ts.foldl (fun m t => if t.2 > 0 then addCount m t.1 t.2 else m) m, 0 < p.2 by
    exact h tracks [] (by simp)
  intro ts
  induction ts with
  | nil => intro m hm; exact hm
  | cons t ts ih =>
    intro m hm
    simp only [List.foldl_cons]
    by_cases ht : t.2 > 0
    · rw [if_pos ht]
      exact ih _ (addCount_pos m t.1 t.2 hm ht)
    · rw [if_neg ht]
      exact ih _ hm

theorem lookupPos_eq_none_iff (m : List (String × Int)) (x : String) :
    lookupPos m x = none ↔ ∀ p ∈ m, ¬ p.1 = x := by
  unfold lookupPos
  rw [Option.map_eq_none', List.find?_eq_none]
  constructor
  · intro h p hp
    simpa using h p hp
  · intro h p hp
    simpa using h p hp

theorem lookupPos_of_mem_nodup (m : List (String × Int)) (n : String) (c : Int)
    (hnd : (m.map Prod.fst).Nodup) (hmem : (n, c) ∈ m) : lookupPos m n = some c := by
  induction m with
  | nil => simp at hmem
  | cons q t ih =>
    rw [List.map_cons, List.nodup_cons] at hnd
    rcases List.mem_cons.mp hmem with h | h
    · rw [← h]
      unfold lookupPos
      rw [List.find?_cons_of_pos _ (by simp)]
      rfl
    · have hqn : ¬ q.1 = n := by
        intro hq
        have hn : n ∈ List.map Prod.fst t := List.mem_map.mpr ⟨(n, c), h, rfl⟩
        rw [← hq] at hn
        exact hnd.1 hn
      unfold lookupPos
      rw [List.find?_cons_of_neg _ (by simpa using hqn)]
      exact ih hnd.2 h

theorem count_expandCounts (m : List (String × Int)) (hnd : (m.map Prod.fst).Nodup)
    (x : String) :
    (expandCounts m).count x = ((lookupPos m x).getD 0).toNat := by
  induction m with
  | nil => simp [expandCounts, lookupPos]
  | cons q t ih =>
    rw [List.map_cons, List.nodup_cons] at hnd
    unfold expandCounts
    rw [List.flatMap_cons, List.count_append]
    have ihv := ih hnd.2
    by_cases hx : q.1 = x
    · have hlk : lookupPos (q :: t) x = some q.2 := by
        unfold lookupPos
        rw [List.find?_cons_of_pos _ (by simpa using hx)]
        rfl
      have htx : lookupPos t x = none := by
        rw [lookupPos_eq_none_iff]
        intro p hp hpx
        have hin : p.1 ∈ List.map Prod.fst t := List.mem_map.mpr ⟨p, hp, rfl⟩
        rw [hpx, ← hx] at hin
        exact hnd.1 hin
      rw [hlk]
      rw [htx] at ihv
      have hrep : (List.replicate q.2.toNat q.1).count x = q.2.toNat := by
        rw [List.count_replicate]
        simp [hx]
      show (List.replicate q.2.toNat q.1).count x + (expandCounts t).count x = _
      rw [hrep, ihv]
      simp
    · have hlk : lookupPos (q :: t) x = lookupPos t x := by
        unfold lookupPos
        rw [List.find?_cons_of_neg _ (by simpa using hx)]
      have hrep : (List.replicate q.2.toNat q.1).count x = 0 := by
        rw [List.count_replicate]
        simp [hx]
      show (List.replicate q.2.toNat q.1).count x + (expandCounts t).count x = _
      rw [hrep, hlk, ihv]
      simp

theorem expandCounts_length (m : List (String × Int)) (hpos : ∀ p ∈ m, 0 < p.2) :
    ((expandCounts m).length : Int) = sumVals m := by
  induction m with
  | nil => simp [expandCounts, sumVals]
  | cons q t ih =>
    unfold expandCounts
    rw [List.flatMap_cons, List.length_append]
    have hq := hpos q (by simp)
    have iht := ih (fun p hp => hpos p (List.mem_cons_of_mem q hp))
    show ((List.replicate q.2.toNat q.1).length + (expandCounts t).length : Int) = q.2 + sumVals t
    rw [List.length_replicate]
    rw [iht]
    have : (q.2.toNat : Int) = q.2 := Int.toNat_of_nonneg (le_of_lt hq)
    omega

theorem le_maxVals (m : List (String × Int)) : ∀ p ∈ m, p.2 ≤ maxVals m := by
  induction m with
  | nil => intro p hp; simp at hp
  | cons q t ih =>
    intro p hp
    unfold maxVals
    rcases List.mem_cons.mp hp with h | h
    · rw [h]; exact le_max_left _ _
    · exact le_trans (ih p h) (le_max_right _ _)

theorem maxVals_mem (m : List (String × Int)) (hne : m ≠ []) (hpos : ∀ p ∈ m, 0 < p.2) :
    ∃ p ∈ m, p.2 = maxVals m := by
  induction m with
  | nil => exact absurd rfl hne
  | cons q t ih =>
    unfold maxVals
    cases t with
    | nil =>
      refine ⟨q, by simp, ?_⟩
      have := hpos q (by simp)
      simp only [maxVals]
      omega
    | cons r u =>
      rcases le_total (maxVals (r :: u)) q.2 with h | h
      · exact ⟨q, by simp, (max_eq_left h).symm⟩
      · obtain ⟨p, hp, hpv⟩ := ih (by simp) (fun p hp => hpos p (List.mem_cons_of_mem q hp))
        exact ⟨p, List.mem_cons_of_mem q hp, by rw [hpv, max_eq_right h]⟩

/-- Necessity of the analyzer's condition: if some ordering of the merged
distribution satisfies the gap invariant, the analyzer reports it feasible. -/
theorem feasibility_necessary (tracks : List (String × Int)) (g : Int) (l : List String)
    (hg : 0 < g) (hperm : l.Perm (expandCounts (_count_map tracks)))
    (hinv : gapInvariant l g) :
    (analyze_gap_feasibility tracks g).feasible = true := by
  by_cases hempty : _count_map tracks = []
  · unfold analyze_gap_feasibility
    rw [if_pos hempty]
  · unfold analyze_gap_feasibility
    rw [if_neg hempty, if_neg (by omega : ¬ g ≤ 0)]
    show decide (g * (maxVals (_count_map tracks) - 1) ≤
      sumVals (_count_map tracks) - maxVals (_count_map tracks)) = true
    rw [decide_eq_true_eq]
    set counts := _count_map tracks with hcounts
    obtain ⟨pmax, hpmem, hpval⟩ := maxVals_mem counts hempty (count_map_pos tracks)
    have hnd := count_map_keys_nodup tracks
    have hps := pairwiseSpaced_of_gapInvariant l g hinv
    -- the count of the bottleneck item in `l` is `maxVals counts`
    have hlk : lookupPos counts pmax.1 = some pmax.2 :=
      lookupPos_of_mem_nodup counts pmax.1 pmax.2 hnd (by simpa using hpmem)
    have hcnt : l.count pmax.1 = pmax.2.toNat := by
      rw [hperm.count_eq pmax.1, count_expandCounts counts hnd pmax.1, hlk]
      simp
    have hposmax : 0 < pmax.2 := count_map_pos tracks pmax hpmem
    have hk : 1 ≤ l.count pmax.1 := by omega
    have hlen := length_ge_of_spaced_count l g pmax.1 hps hk
    have hlength : (l.length : Int) = sumVals counts := by
      rw [hperm.length_eq]
      exact expandCounts_length counts (count_map_pos tracks)
    have hcast : ((l.count pmax.1 : Int)) = pmax.2 := by
      rw [hcnt]
      exact Int.toNat_of_nonneg (le_of_lt hposmax)
    rw [hcast, hlength] at hlen
    rw [← hpval]
    nlinarith [hlen]

/-- A successful run of `_schedule_with_gap` returns exactly the merged
multiset of occurrences. -/
theorem schedule_with_gap_perm (tracks : List (String × Int)) (g : Int)
    (res : List String) (hrun : _schedule_with_gap tracks g = .ok res) :
    res.Perm (expandCounts (_count_map tracks)) := by
  unfold _schedule_with_gap at hrun
  by_cases hempty : _count_map tracks = []
  · rw [if_pos hempty] at hrun
    injection hrun with hrun
    rw [← hrun, hempty]
    exact List.Perm.refl _
  · rw [if_neg hempty] at hrun
    by_cases hg : g ≤ 0
    · rw [if_pos hg] at hrun
      injection hrun with hrun
      rw [← hrun]
    · rw [if_neg hg] at hrun
      split at hrun
      next e hloop => cases hrun
      next result hloop =>
        split at hrun
        next hlen => cases hrun
        next hlen =>
          split at hrun
          next hval => cases hrun
          next hval =>
            injection hrun with hrun
            have hheapperm :
                (heapOcc (heapify ((_count_map tracks).map (fun p => (-p.2, p.1))))).Perm
                  (expandCounts (_count_map tracks)) := by
              rw [← heapOcc_map_counts (_count_map tracks)]
              exact List.Perm.flatMap_right _ (heapify_perm _)
            have hpos0 : ∀ e ∈ heapify ((_count_map tracks).map (fun p => (-p.2, p.1))),
                e.1 ≤ -1 := by
              intro e he
              have hmem : e ∈ (_count_map tracks).map (fun p => (-p.2, p.1)) :=
                (heapify_perm _).mem_iff.mp he
              obtain ⟨p, hp, hpe⟩ := List.mem_map.mp hmem
              have hc := count_map_pos tracks p hp
              rw [← hpe]
              show -p.2 ≤ -1
              omega
            have hlen0 : ((([] : List String).length : Int) +
                ((heapOcc (heapify ((_count_map tracks).map (fun p => (-p.2, p.1))))).length : Int) +
                ((cdOcc ([] : List (Int × Int × String))).length : Int)
                  = sumVals (_count_map tracks)) := by
              have h1 := hheapperm.length_eq
              have h2 := expandCounts_length (_count_map tracks) (count_map_pos tracks)
              simp only [List.length_nil, cdOcc, List.flatMap_nil]
              omega
            have hmain := schedLoop_perm g (sumVals (_count_map tracks))
              ((sumVals (_count_map tracks)).toNat + 1)
              (heapify ((_count_map tracks).map (fun p => (-p.2, p.1)))) [] [] 0 result
              hpos0 (by simp) hlen0 hloop
            rw [← hrun]
            refine hmain.trans ?_
            simp only [List.nil_append, cdOcc, List.flatMap_nil, List.append_nil]
            exact hheapperm

/-- When `g > 0`, a successful run of `_schedule_with_gap` passed the final
safety check, so the result satisfies `valid_all`. -/
theorem schedule_with_gap_valid (tracks : List (String × Int)) (g : Int)
    (res : List String) (hg : 0 < g) (hrun : _schedule_with_gap tracks g = .ok res) :
    valid_all res g = true := by
  unfold _schedule_with_gap at hrun
  by_cases hempty : _count_map tracks = []
  · rw [if_pos hempty] at hrun
    injection hrun with hrun
    rw [← hrun]
    rfl
  · rw [if_neg hempty, if_neg (by omega : ¬ g ≤ 0)] at hrun
    split at hrun
    next e hloop => cases hrun
    next result hloop =>
      split at hrun
      next hlen => cases hrun
      next hlen =>
        split at hrun
        next hval => cases hrun
        next hval =>
          injection hrun with hrun
          rw [← hrun]
          push_neg at hval
          have := hval hg
          cases hb : valid_all result g with
          | false => exact absurd hb this
          | true => rfl

theorem pairwiseSpaced_iff_B (l : List String) (g : Int) :
    pairwiseSpaced l g ↔ pairwiseSpacedB l g = true := by
  unfold pairwiseSpacedB
  rw [decide_eq_true_eq]
  constructor
  · intro h i j hij hget
    refine h i j (l.get j) hij ?_ ?_
    · rw [List.get?_eq_get i.isLt, hget]
    · rw [List.get?_eq_get j.isLt]
  · intro h i j x hij hi hj
    rw [List.get?_eq_some] at hi hj
    obtain ⟨hi', hgi⟩ := hi
    obtain ⟨hj', hgj⟩ := hj
    have hgoal : l.get ⟨i, hi'⟩ = l.get ⟨j, hj'⟩ := by rw [hgi, hgj]
    have := h ⟨i, hi'⟩ ⟨j, hj'⟩ hij hgoal
    simpa using this

/-! ## The fallback controller -/

/-- A successful `genLoop` run comes from some candidate gap in the scanned
range for which the deterministic scheduler succeeded; the returned list is
that schedule, possibly passed through the randomizer. -/
theorem genLoop_ok (tracks : List (String × Int)) (m : Int) (r : Bool) (s : Int) :
    ∀ (k : Nat) (li : Option FeasibilityReport) (l : List String),
      genLoop tracks m r s k li = .ok l →
      ∃ gap : Int, m ≤ gap ∧ gap ≤ m + (k : Int) - 1 ∧
        ∃ base, _schedule_with_gap tracks gap = .ok base ∧
          (l = base ∨ l = _randomize_schedule_preserving_gap base gap (rngDraws s base.length)) := by
  intro k
  induction k with
  | zero =>
    intro li l hrun
    unfold genLoop at hrun
    cases li with
    | none => cases hrun
    | some info => cases hrun
  | succ k ih =>
    intro li l hrun
    unfold genLoop at hrun
    by_cases hfeas : (analyze_gap_feasibility tracks (m + (k : Int))).feasible = false
    · rw [if_pos hfeas] at hrun
      obtain ⟨gap, h1, h2, base, h3, h4⟩ := ih _ l hrun
      exact ⟨gap, h1, by push_cast; omega, base, h3, h4⟩
    · rw [if_neg hfeas] at hrun
      split at hrun
      next base hsched =>
        refine ⟨m + (k : Int), by omega, by push_cast; omega, base, hsched, ?_⟩
        by_cases hr : r
        · rw [if_pos hr] at hrun
          injection hrun with hrun
          exact Or.inr hrun.symm
        · rw [if_neg hr] at hrun
          injection hrun with hrun
          exact Or.inl hrun.symm
      next hsched => cases hrun
      next e hne hsched =>
        obtain ⟨gap, h1, h2, base, h3, h4⟩ := ih _ l hrun
        exact ⟨gap, h1, by push_cast; omega, base, h3, h4⟩

/-- With `randomize = False` the loop never consults the seed. -/
theorem genLoop_seed_irrel (tracks : List (String × Int)) (m : Int) (s1 s2 : Int) :
    ∀ (k : Nat) (li : Option FeasibilityReport),
      genLoop tracks m false s1 k li = genLoop tracks m false s2 k li := by
  intro k
  induction k with
  | zero => intro li; rfl
  | succ k ih =>
    intro li
    simp only [genLoop]
    by_cases hfeas : (analyze_gap_feasibility tracks (m + (k : Int))).feasible = false
    · rw [if_pos hfeas, if_pos hfeas, ih]
    · rw [if_neg hfeas, if_neg hfeas]
      cases _schedule_with_gap tracks (m + (k : Int)) with
      | ok base => rfl
      | error e =>
        cases e with
        | gapViolated => rfl
        | heapEmptyWhileRemain => exact ih _
        | notAllPlaced => exact ih _
        | outOfFuel => exact ih _

/-! ## Everything depends on the tracks only through the count map -/

theorem analyze_congr (t1 t2 : List (String × Int))
    (h : _count_map t1 = _count_map t2) (g : Int) :
    analyze_gap_feasibility t1 g = analyze_gap_feasibility t2 g := by
  unfold analyze_gap_feasibility
  rw [h]

theorem schedule_congr (t1 t2 : List (String × Int))
    (h : _count_map t1 = _count_map t2) (g : Int) :
    _schedule_with_gap t1 g = _schedule_with_gap t2 g := by
  unfold _schedule_with_gap
  rw [h]

theorem explain_congr (t1 t2 : List (String × Int))
    (h : _count_map t1 = _count_map t2) (g : Int) :
    explain_gap_issue t1 g = explain_gap_issue t2 g := by
  unfold explain_gap_issue
  rw [analyze_congr t1 t2 h g]

theorem genLoop_congr (t1 t2 : List (String × Int))
    (h : _count_map t1 = _count_map t2) (m : Int) (r : Bool) (s : Int) :
    ∀ (k : Nat) (li : Option FeasibilityReport),
      genLoop t1 m r s k li = genLoop t2 m r s k li := by
  intro k
  induction k with
  | zero =>
    intro li
    simp only [genLoop]
    cases li with
    | none => rfl
    | some info =>
      show Except.error (GenError.cannotSchedule (explain_gap_issue t1 info.gap)) =
        Except.error (GenError.cannotSchedule (explain_gap_issue t2 info.gap))
      rw [explain_congr t1 t2 h]
  | succ k ih =>
    intro li
    simp only [genLoop]
    rw [analyze_congr t1 t2 h (m + (k : Int)), schedule_congr t1 t2 h (m + (k : Int))]
    by_cases hfeas : (analyze_gap_feasibility t2 (m + (k : Int))).feasible = false
    · rw [if_pos hfeas, if_pos hfeas, ih]
    · rw [if_neg hfeas, if_neg hfeas]
      cases _schedule_with_gap t2 (m + (k : Int)) with
      | ok base => rfl
      | error e =>
        cases e with
        | gapViolated => rfl
        | heapEmptyWhileRemain => rw [ih]
        | notAllPlaced => rw [ih]
        | outOfFuel => rw [ih]

theorem generate_congr (t1 t2 : List (String × Int))
    (h : _count_map t1 = _count_map t2) (p m : Int) (r : Bool) (s : Int) :
    generate_round_robin t1 p m r s = generate_round_robin t2 p m r s := by
  unfold generate_round_robin
  exact genLoop_congr t1 t2 h _ r s _ none

/-- Appending an entry with a non-positive count leaves the count map
unchanged. -/
theorem count_map_append_nonpos (tracks : List (String × Int)) (name : String)
    (c : Int) (hc : c ≤ 0) :
    _count_map (tracks ++ [(name, c)]) = _count_map tracks := by
  unfold _count_map
  rw [List.foldl_append]
  simp only [List.foldl_cons, List.foldl_nil]
  rw [if_neg (by omega : ¬ c > 0)]

/-! ## Completeness of the gap scan: the spec's invariant implies `valid_all` -/

theorem gapScan_complete (g : Int) :
    ∀ (rest : List String) (last : List (String × Int)) (i : Int),
      (∀ x p, lookupPos last x = some p → p < i) →
      (∀ (j : Nat) (x : String) (p : Int), rest.get? j = some x →
          lookupPos last x = some p → i + (j : Int) - p ≥ g + 1) →
      (∀ (j1 j2 : Nat) (x : String), j1 < j2 → rest.get? j1 = some x →
          rest.get? j2 = some x → (j2 : Int) - (j1 : Int) ≥ g + 1) →
      gapScan g rest last i = true := by
  intro rest
  induction rest with
  | nil => intro last i _ _ _; rfl
  | cons s rest ih =>
    intro last i hbound hA hB
    have hbound' : ∀ x p, lookupPos (setPos last s i) x = some p → p < i + 1 := by
      intro x p hp
      rw [lookupPos_setPos] at hp
      by_cases hx : x = s
      · rw [if_pos hx] at hp; injection hp with hp; omega
      · rw [if_neg hx] at hp; have := hbound x p hp; omega
    have hA' : ∀ (j : Nat) (x : String) (p : Int), rest.get? j = some x →
        lookupPos (setPos last s i) x = some p → (i + 1) + (j : Int) - p ≥ g + 1 := by
      intro j x p hj hp
      rw [lookupPos_setPos] at hp
      by_cases hx : x = s
      · rw [if_pos hx] at hp
        injection hp with hp
        have hb := hB 0 (j + 1) x (by omega) (by rw [hx]; rfl)
          (by simpa using hj)
        push_cast at hb ⊢
        omega
      · rw [if_neg hx] at hp
        have ha := hA (j + 1) x p (by simpa using hj) hp
        push_cast at ha ⊢
        omega
    have hB' : ∀ (j1 j2 : Nat) (x : String), j1 < j2 → rest.get? j1 = some x →
        rest.get? j2 = some x → (j2 : Int) - (j1 : Int) ≥ g + 1 := by
      intro j1 j2 x hlt h1 h2
      have := hB (j1 + 1) (j2 + 1) x (by omega) (by simpa using h1) (by simpa using h2)
      push_cast at this ⊢
      omega
    have hrec := ih (setPos last s i) (i + 1) hbound' hA' hB'
    unfold gapScan
    cases hl : lookupPos last s with
    | none => exact hrec
    | some p =>
      have hc := hA 0 s p rfl hl
      show (if i - p - 1 < g then false else gapScan g rest (setPos last s i) (i + 1)) = true
      rw [if_neg (by omega : ¬ i - p - 1 < g)]
      exact hrec

theorem valid_all_of_pairwiseSpaced (l : List String) (g : Int)
    (h : pairwiseSpaced l g) : valid_all l g = true := by
  refine gapScan_complete g l [] 0 ?_ ?_ ?_
  · intro x p hp; simp [lookupPos] at hp
  · intro j x p _ hp; simp [lookupPos] at hp
  · intro j1 j2 x hlt h1 h2
    have := h j1 j2 x hlt h1 h2
    omega

/-! ## Small spacing lemmas -/

theorem pairwiseSpaced_append_singleton (l : List String) (g : Int) (nm : String)
    (hl : pairwiseSpaced l g)
    (hnm : ∀ j : Nat, l.get? j = some nm → (j : Int) + g + 1 ≤ l.length) :
    pairwiseSpaced (l ++ [nm]) g := by
  intro i j x hij hi hj
  by_cases hjl : j < l.length
  · have hi' : l.get? i = some x := by
      rw [List.get?_append (by omega)] at hi
      exact hi
    have hj' : l.get? j = some x := by
      rw [List.get?_append hjl] at hj
      exact hj
    exact hl i j x hij hi' hj'
  · -- j is the new position
    have hjlen : j = l.length := by
      have : j < (l ++ [nm]).length := (List.get?_eq_some.mp hj).1
      rw [List.length_append, List.length_singleton] at this
      omega
    have hx : x = nm := by
      rw [hjlen] at hj
      rw [List.get?_append_right (by omega)] at hj
      simp [hjlen] at hj
      exact hj.symm
    have hi' : l.get? i = some nm := by
      rw [← hx]
      rw [List.get?_append (by omega)] at hi
      exact hi
    have := hnm i hi'
    omega

theorem pairwiseSpaced_tail (a : String) (v : List String) (g : Int)
    (h : pairwiseSpaced (a :: v) g) : pairwiseSpaced v g := by
  intro i j x hij hi hj
  have := h (i + 1) (j + 1) x (by omega) (by simpa using hi) (by simpa using hj)
  push_cast at this ⊢
  omega

/-! ## Order and counting facts about the heap and the cooldown queue -/

theorem heapPush_sorted (h : List (Int × String)) (e : Int × String)
    (hs : h.Pairwise (fun a b => a.1 ≤ b.1)) :
    (heapPush h e).Pairwise (fun a b => a.1 ≤ b.1) := by
  induction h with
  | nil => simp [heapPush]
  | cons x xs ih =>
    rw [List.pairwise_cons] at hs
    unfold heapPush
    by_cases hc : e.1 < x.1 ∨ (e.1 = x.1 ∧ strLt e.2 x.2)
    · rw [if_pos hc]
      have hex : e.1 ≤ x.1 := by
        rcases hc with h1 | h1
        · omega
        · omega
      rw [List.pairwise_cons]
      constructor
      · intro b hb
        rcases List.mem_cons.mp hb with h1 | h1
        · rw [h1]; exact hex
        · have := hs.1 b h1
          omega
      · rw [List.pairwise_cons]
        exact ⟨hs.1, hs.2⟩
    · rw [if_neg hc]
      push_neg at hc
      rw [List.pairwise_cons]
      constructor
      · intro b hb
        rcases heapPush_mem hb with h1 | h1
        · rw [h1]
          omega
        · exact hs.1 b h1
      · exact ih hs.2

theorem foldl_heapPush_sorted :
    ∀ (l acc : List (Int × String)), acc.Pairwise (fun a b => a.1 ≤ b.1) →
      (l.foldl heapPush acc).Pairwise (fun a b => a.1 ≤ b.1)
  | [], _, h => h
  | x :: xs, acc, h => foldl_heapPush_sorted xs (heapPush acc x) (heapPush_sorted acc x h)

theorem heapify_sorted (l : List (Int × String)) :
    (heapify l).Pairwise (fun a b => a.1 ≤ b.1) :=
  foldl_heapPush_sorted l [] List.Pairwise.nil

theorem mem_heapOcc {hp : List (Int × String)} {x : String} (h : x ∈ heapOcc hp) :
    ∃ e ∈ hp, e.2 = x := by
  unfold heapOcc at h
  rw [List.mem_flatMap] at h
  obtain ⟨e, he, hx⟩ := h
  rw [List.mem_replicate] at hx
  exact ⟨e, he, hx.2.symm⟩

theorem mem_cdOcc {cd : List (Int × Int × String)} {x : String} (h : x ∈ cdOcc cd) :
    ∃ e ∈ cd, e.2.2 = x := by
  unfold cdOcc at h
  rw [List.mem_flatMap] at h
  obtain ⟨e, he, hx⟩ := h
  rw [List.mem_replicate] at hx
  exact ⟨e, he, hx.2.symm⟩

theorem count_heapOcc_of_not_mem (hp : List (Int × String)) (x : String)
    (hx : ∀ e ∈ hp, e.2 ≠ x) : (heapOcc hp).count x = 0 := by
  rw [List.count_eq_zero]
  intro hmem
  obtain ⟨e, he, hex⟩ := mem_heapOcc hmem
  exact hx e he hex

theorem count_cdOcc_of_not_mem (cd : List (Int × Int × String)) (x : String)
    (hx : ∀ e ∈ cd, e.2.2 ≠ x) : (cdOcc cd).count x = 0 := by
  rw [List.count_eq_zero]
  intro hmem
  obtain ⟨e, he, hex⟩ := mem_cdOcc hmem
  exact hx e he hex

theorem count_heapOcc_mem :
    ∀ (hp : List (Int × String)), (hp.map Prod.snd).Nodup →
      ∀ e ∈ hp, (heapOcc hp).count e.2 = (-e.1).toNat := by
  intro hp
  induction hp with
  | nil => intro _ e he; cases he
  | cons f t ih =>
    intro hnd e he
    rw [List.map_cons, List.nodup_cons] at hnd
    have hocc : heapOcc (f :: t) = List.replicate (-f.1).toNat f.2 ++ heapOcc t := by
      simp [heapOcc, List.flatMap_cons]
    rw [hocc, List.count_append]
    rcases List.mem_cons.mp he with h | h
    · rw [h, List.count_replicate_self]
      have h0 : (heapOcc t).count f.2 = 0 := by
        refine count_heapOcc_of_not_mem t f.2 ?_
        intro q hq hq2
        exact hnd.1 (hq2 ▸ List.mem_map_of_mem Prod.snd hq)
      rw [← h] at h0 ⊢
      rw [h0, h]
      omega
    · have hne : ¬ e.2 = f.2 := by
        intro hh
        exact hnd.1 (hh ▸ List.mem_map_of_mem Prod.snd h)
      rw [List.count_replicate]
      rw [if_neg (by simpa using fun hh : f.2 = e.2 => hne hh.symm)]
      rw [ih hnd.2 e h]
      omega

/-! ## Structure of `drainCooldown` -/

theorem drainCooldown_sub (step : Int) :
    ∀ (cd : List (Int × Int × String)) (heap : List (Int × String)),
      ∀ f ∈ (drainCooldown step heap cd).2, f ∈ cd := by
  intro cd
  induction cd with
  | nil => intro heap f hf; simp [drainCooldown] at hf
  | cons e rest ih =>
    intro heap f hf
    rcases e with ⟨r, negc, nm⟩
    unfold drainCooldown at hf
    by_cases hr : r ≤ step
    · rw [if_pos hr] at hf
      exact List.mem_cons_of_mem _ (ih (heapPush heap (negc, nm)) f hf)
    · rw [if_neg hr] at hf
      exact hf

theorem drainCooldown_heapMem (step : Int) :
    ∀ (cd : List (Int × Int × String)) (heap : List (Int × String)),
      ∀ f ∈ (drainCooldown step heap cd).1,
        f ∈ heap ∨ ∃ r : Int, (r, f.1, f.2) ∈ cd ∧ r ≤ step := by
  intro cd
  induction cd with
  | nil => intro heap f hf; exact Or.inl hf
  | cons e rest ih =>
    intro heap f hf
    rcases e with ⟨r, negc, nm⟩
    unfold drainCooldown at hf
    by_cases hr : r ≤ step
    · rw [if_pos hr] at hf
      rcases ih (heapPush heap (negc, nm)) f hf with h | ⟨r', hr', hr2⟩
      · rcases heapPush_mem h with h1 | h1
        · right
          refine ⟨r, ?_, hr⟩
          rw [h1]
          exact List.mem_cons_self _ _
        · exact Or.inl h1
      · exact Or.inr ⟨r', List.mem_cons_of_mem _ hr', hr2⟩
    · rw [if_neg hr] at hf
      exact Or.inl hf

theorem drainCooldown_sorted (step : Int) :
    ∀ (cd : List (Int × Int × String)) (heap : List (Int × String)),
      heap.Pairwise (fun a b => a.1 ≤ b.1) → cd.Pairwise (fun a b => a.1 ≤ b.1) →
      (drainCooldown step heap cd).1.Pairwise (fun a b => a.1 ≤ b.1) ∧
      (drainCooldown step heap cd).2.Pairwise (fun a b => a.1 ≤ b.1) := by
  intro cd
  induction cd with
  | nil => intro heap hh _; exact ⟨hh, by simp [drainCooldown]⟩
  | cons e rest ih =>
    intro heap hh hc
    rcases e with ⟨r, negc, nm⟩
    rw [List.pairwise_cons] at hc
    unfold drainCooldown
    by_cases hr : r ≤ step
    · rw [if_pos hr]
      exact ih (heapPush heap (negc, nm)) (heapPush_sorted heap (negc, nm) hh) hc.2
    · rw [if_neg hr]
      refine ⟨hh, ?_⟩
      rw [List.pairwise_cons]
      exact hc

theorem drainCooldown_front (step : Int) :
    ∀ (cd : List (Int × Int × String)) (heap : List (Int × String)),
      cd.Pairwise (fun a b => a.1 ≤ b.1) →
      ∀ f ∈ (drainCooldown step heap cd).2, step < f.1 := by
  intro cd
  induction cd with
  | nil => intro heap _ f hf; simp [drainCooldown] at hf
  | cons e rest ih =>
    intro heap hc f hf
    rcases e with ⟨r, negc, nm⟩
    rw [List.pairwise_cons] at hc
    unfold drainCooldown at hf
    by_cases hr : r ≤ step
    · rw [if_pos hr] at hf
      exact ih (heapPush heap (negc, nm)) hc.2 f hf
    · rw [if_neg hr] at hf
      rcases List.mem_cons.mp hf with h | h
      · rw [h]
        simp only
        omega
      · have := hc.1 f h
        simp only at this
        omega

theorem drainCooldown_names (step : Int) :
    ∀ (cd : List (Int × Int × String)) (heap : List (Int × String)),
      ((drainCooldown step heap cd).1.map Prod.snd ++
        (drainCooldown step heap cd).2.map (fun e => e.2.2)).Perm
        (heap.map Prod.snd ++ cd.map (fun e => e.2.2)) := by
  intro cd
  induction cd with
  | nil => intro heap; simp [drainCooldown]
  | cons e rest ih =>
    intro heap
    rcases e with ⟨r, negc, nm⟩
    unfold drainCooldown
    by_cases hr : r ≤ step
    · rw [if_pos hr]
      refine (ih (heapPush heap (negc, nm))).trans ?_
      have hpush : ((heapPush heap (negc, nm)).map Prod.snd).Perm
          (nm :: heap.map Prod.snd) := by
        have := (heapPush_perm heap (negc, nm)).map Prod.snd
        simpa using this
      refine (hpush.append (List.Perm.refl _)).trans ?_
      rw [List.map_cons]
      exact (List.perm_middle).symm
    · rw [if_neg hr]

/-! ## Relabeling the occurrences of two items over fixed positions -/

/-- Number of entries of a labeled position list carrying label `b`. -/
def countLab (b : Bool) (L : List (Nat × Bool)) : Nat :=
  (L.filter (fun e => e.2 == b)).length

/-- Positions strictly decreasing along the list. -/
def Desc (L : List (Nat × Bool)) : Prop := L.Pairwise (fun x y => y.1 < x.1)

/-- Entries with equal labels are at least `G + 1` apart. -/
def LabSpacedP (G : Nat) (L : List (Nat × Bool)) : Prop :=
  L.Pairwise (fun x y => x.2 = y.2 → y.1 + G + 1 ≤ x.1)

theorem countLab_nil (b : Bool) : countLab b [] = 0 := rfl

theorem countLab_cons (b : Bool) (e : Nat × Bool) (L : List (Nat × Bool)) :
    countLab b (e :: L) = (if e.2 = b then 1 else 0) + countLab b L := by
  unfold countLab
  rw [List.filter_cons]
  by_cases h : e.2 = b
  · simp [h]; omega
  · simp [h]

theorem countLab_flip (b : Bool) (L : List (Nat × Bool)) :
    countLab b (L.map (fun e => (e.1, !e.2))) = countLab (!b) L := by
  induction L with
  | nil => rfl
  | cons e L ih =>
    rw [List.map_cons, countLab_cons, countLab_cons, ih]
    cases he : e.2 <;> cases b <;> simp [he]

theorem countLab_pos (b : Bool) (e : Nat × Bool) (L : List (Nat × Bool))
    (he : e ∈ L) (hb : e.2 = b) : 1 ≤ countLab b L := by
  unfold countLab
  have hmem : e ∈ L.filter (fun e => e.2 == b) := by
    rw [List.mem_filter]
    exact ⟨he, by simp [hb]⟩
  exact List.length_pos_of_mem hmem

theorem getLast?_mem' : ∀ (L : List (Nat × Bool)) (e : Nat × Bool),
    L.getLast? = some e → e ∈ L := by
  intro L
  induction L with
  | nil => intro e h; simp at h
  | cons a L ih =>
    intro e h
    cases L with
    | nil =>
      simp [List.getLast?] at h
      simp [h]
    | cons b L' =>
      rw [List.getLast?_cons_cons] at h
      exact List.mem_cons_of_mem a (ih e h)

/--
Relabeling lemma: a strictly descending list of labeled positions in which
entries with equal labels are `G + 1` apart, whose minimum (last) position is
labeled `false`, and which has at least as many `true` labels as `false`
labels (with at least one `false`), can be relabeled — same positions, same
number of `false` labels — so that it is still spaced and the minimum
position is labeled `true`.
-/
theorem relabel (G : Nat) :
    ∀ (n : Nat) (L : List (Nat × Bool)), L.length ≤ n →
      Desc L → LabSpacedP G L →
      1 ≤ countLab false L → countLab false L ≤ countLab true L →
      (∃ e, L.getLast? = some e ∧ e.2 = false) →
      ∃ L' : List (Nat × Bool),
        L'.map Prod.fst = L.map Prod.fst ∧
        countLab false L' = countLab false L ∧
        LabSpacedP G L' ∧
        (∃ e, L'.getLast? = some e ∧ e.2 = true) := by
  intro n
  induction n with
  | zero =>
    intro L hlen _ _ hcf _ _
    have : L = [] := List.length_eq_zero.mp (Nat.le_zero.mp hlen)
    subst this
    simp [countLab_nil] at hcf
  | succ n ih =>
    intro L hlen hdesc hsp hcf hcb hlast
    by_cases hab : countLab false L = countLab true L
    · -- equal counts: flip every label
      refine ⟨L.map (fun e => (e.1, !e.2)), ?_, ?_, ?_, ?_⟩
      · rw [List.map_map]; rfl
      · rw [countLab_flip]; exact hab.symm ▸ rfl
      · unfold LabSpacedP at hsp ⊢
        refine List.Pairwise.map _ ?_ hsp
        intro x y hxy
        simp only
        intro hx
        exact hxy (by cases hx' : x.2 <;> cases hy' : y.2 <;> simp [hx', hy'] at hx ⊢)
      · obtain ⟨e, he, hef⟩ := hlast
        refine ⟨(e.1, !e.2), ?_, by simp [hef]⟩
        rw [List.getLast?_map, he]
        rfl
    · have hab' : countLab false L < countLab true L := lt_of_le_of_ne hcb hab
      obtain ⟨e0, hle, hlf⟩ := hlast
      cases L with
      | nil => simp [countLab_nil] at hcf
      | cons m L₁ =>
        cases L₁ with
        | nil =>
          -- singleton: last = m is false, so true count is 0 < false count
          have hm : m = e0 := by simpa [List.getLast?] using hle
          rw [← hm] at hlf
          rw [countLab_cons, countLab_cons, hlf] at hab'
          simp [countLab_nil] at hab'
        | cons u t =>
          -- decompose invariants
          rw [Desc, List.pairwise_cons] at hdesc
          obtain ⟨hdm, hdesc₁⟩ := hdesc
          rw [LabSpacedP, List.pairwise_cons] at hsp
          obtain ⟨hsm, hsp₁⟩ := hsp
          have hle₁ : (u :: t).getLast? = some e0 := by
            rwa [List.getLast?_cons_cons] at hle
          have hcfL : countLab false (m :: u :: t) =
              (if m.2 = false then 1 else 0) + countLab false (u :: t) :=
            countLab_cons _ _ _
          have hctL : countLab true (m :: u :: t) =
              (if m.2 = true then 1 else 0) + countLab true (u :: t) :=
            countLab_cons _ _ _
          by_cases hfar : u.1 + G + 1 ≤ m.1
          · -- the maximal position is ≥ G + 1 above the next one:
            -- keep it (with its label) and recurse on the tail
            have hcf₁ : 1 ≤ countLab false (u :: t) := by
              rcases hm2 : m.2 with _ | _
              · -- m labeled false: the last element also is, and lives in the tail
                have he0m : e0 ∈ u :: t := getLast?_mem' _ _ hle₁
                exact countLab_pos false e0 _ he0m hlf
              · rw [hcfL, hm2] at hcf
                simpa using hcf
            have hcb₁ : countLab false (u :: t) ≤ countLab true (u :: t) := by
              rcases hm2 : m.2 with _ | _ <;>
                rw [hcfL, hctL, hm2] at hab' <;> simp at hab' <;> omega
            obtain ⟨L₁', hmap, hcnt, hsp', hlast'⟩ :=
              ih (u :: t) (by simpa using Nat.le_of_succ_le_succ hlen)
                hdesc₁ hsp₁ hcf₁ hcb₁ ⟨e0, hle₁, hlf⟩
            have hne : L₁' ≠ [] := by
              intro h
              rw [h] at hmap
              simp at hmap
            refine ⟨m :: L₁', ?_, ?_, ?_, ?_⟩
            · rw [List.map_cons, hmap]; rfl
            · rw [countLab_cons, countLab_cons, hcnt]
            · rw [LabSpacedP, List.pairwise_cons]
              refine ⟨?_, hsp'⟩
              intro x hx _
              have hx1 : x.1 ∈ L₁'.map Prod.fst := List.mem_map_of_mem _ hx
              rw [hmap, List.map_cons] at hx1
              rcases List.mem_cons.mp hx1 with h | h
              · omega
              · obtain ⟨y, hy, hy1⟩ := List.mem_map.mp h
                have : y.1 < u.1 := (List.pairwise_cons.mp hdesc₁).1 y hy
                omega
            · obtain ⟨e, he, het⟩ := hlast'
              refine ⟨e, ?_, het⟩
              cases L₁' with
              | nil => exact absurd rfl hne
              | cons v t'' => rw [List.getLast?_cons_cons]; exact he
          · -- the two maximal positions are close: their labels differ;
            -- remove both, recurse, and reattach with labels chosen afresh
            have hmu : m.2 ≠ u.2 := by
              intro h
              have := hsm u (by simp) h
              omega
            have hum : u.1 < m.1 := hdm u (by simp)
            cases t with
            | nil =>
              -- two close elements with distinct labels: counts are 1 and 1
              rw [hcfL, hctL, countLab_cons, countLab_cons] at hab'
              rcases hm2 : m.2 with _ | _ <;> rcases hu2 : u.2 with _ | _
              · simp [hm2, hu2] at hmu
              · rw [hm2, hu2] at hab'; simp [countLab_nil] at hab'
              · rw [hm2, hu2] at hab'; simp [countLab_nil] at hab'
              · simp [hm2, hu2] at hmu
            | cons w t₂ =>
              have hlet : (w :: t₂).getLast? = some e0 := by
                rwa [List.getLast?_cons_cons] at hle₁
              have he0t : e0 ∈ w :: t₂ := getLast?_mem' _ _ hlet
              -- invariants of the double tail
              rw [List.pairwise_cons] at hdesc₁
              obtain ⟨hdu, hdesc₂⟩ := hdesc₁
              rw [List.pairwise_cons] at hsp₁
              obtain ⟨hsu, hsp₂⟩ := hsp₁
              -- counts: exactly one of m, u is false
              have hcft : 1 ≤ countLab false (w :: t₂) :=
                countLab_pos false e0 _ he0t hlf
              have hcfL' : countLab false (m :: u :: w :: t₂) =
                  1 + countLab false (w :: t₂) := by
                rw [hcfL, countLab_cons]
                rcases hm2 : m.2 with _ | _ <;> rcases hu2 : u.2 with _ | _ <;>
                  simp [hm2, hu2] at hmu ⊢
              have hctL' : countLab true (m :: u :: w :: t₂) =
                  1 + countLab true (w :: t₂) := by
                rw [hctL, countLab_cons]
                rcases hm2 : m.2 with _ | _ <;> rcases hu2 : u.2 with _ | _ <;>
                  simp [hm2, hu2] at hmu ⊢
              have hcbt : countLab false (w :: t₂) ≤ countLab true (w :: t₂) := by
                omega
              obtain ⟨t', hmap, hcnt, hspt', hlast'⟩ :=
                ih (w :: t₂) (by simp at hlen ⊢; omega)
                  hdesc₂ hsp₂ hcft hcbt ⟨e0, hlet, hlf⟩
              cases t' with
              | nil => simp at hmap
              | cons v t'' =>
                rw [List.map_cons, List.map_cons] at hmap
                have hv1 : v.1 = w.1 := by
                  injection hmap with h1 _
                have hmap₂ : t''.map Prod.fst = t₂.map Prod.fst := by
                  injection hmap with _ h2
                -- key position facts
                have hwu : w.1 < u.1 := hdu w (by simp)
                have key1 : w.1 + G + 1 ≤ m.1 := by
                  by_cases hc2 : u.1 ≤ w.1 + G
                  · -- u and w close: w's label differs from u's, so equals m's
                    have huw : u.2 ≠ w.2 := by
                      intro h
                      have := hsu w (by simp) h
                      omega
                    have hwm : m.2 = w.2 := by
                      rcases hm2 : m.2 with _ | _ <;> rcases hu2 : u.2 with _ | _ <;>
                        rcases hw2 : w.2 with _ | _ <;>
                          simp [hm2, hu2, hw2] at hmu huw ⊢
                    exact hsm w (by simp) hwm
                  · omega
                have key2 : ∀ y ∈ t₂, y.1 + G + 1 ≤ u.1 := by
                  intro y hy
                  by_cases hc2 : u.1 ≤ w.1 + G
                  · have huw : u.2 ≠ w.2 := by
                      intro h
                      have := hsu w (by simp) h
                      omega
                    rcases hyw : decide (y.2 = w.2) with _ | _
                    · -- y's label differs from w's, hence equals u's
                      have hyu : y.2 = u.2 := by
                        have := of_decide_eq_false hyw
                        rcases h1 : y.2 with _ | _ <;> rcases h2 : w.2 with _ | _ <;>
                          rcases h3 : u.2 with _ | _ <;>
                            simp [h1, h2, h3] at this huw ⊢
                      have := hsu y (by simp [hy]) hyu.symm
                      omega
                    · have hyw' := of_decide_eq_true hyw
                      have := (List.pairwise_cons.mp hsp₂).1 y hy hyw'.symm
                      have := (List.pairwise_cons.mp hdesc₂).1 y hy
                      omega
                  · have : y.1 < w.1 := (List.pairwise_cons.mp hdesc₂).1 y hy
                    omega
                -- reassemble with fresh labels for the two removed entries
                refine ⟨(m.1, v.2) :: (u.1, !v.2) :: v :: t'', ?_, ?_, ?_, ?_⟩
                · simp only [List.map_cons]
                  rw [hv1, hmap₂]
                · rw [countLab_cons, countLab_cons, hcfL', hcnt]
                  rcases hv2 : v.2 with _ | _ <;> simp [hv2]
                · rw [LabSpacedP, List.pairwise_cons]
                  constructor
                  · intro x hx
                    rcases List.mem_cons.mp hx with h | h
                    · subst h
                      intro hcontr
                      simp at hcontr
                    · rcases List.mem_cons.mp h with h' | h'
                      · subst h'
                        intro _
                        simp only
                        omega
                      · intro _
                        have hx1 : x.1 ∈ t''.map Prod.fst := List.mem_map_of_mem _ h'
                        rw [hmap₂] at hx1
                        obtain ⟨y, hy, hy1⟩ := List.mem_map.mp hx1
                        have := key2 y hy
                        simp only
                        omega
                  · rw [List.pairwise_cons]
                    constructor
                    · intro x hx
                      rcases List.mem_cons.mp hx with h | h
                      · subst h
                        intro hcontr
                        simp at hcontr
                      · intro _
                        have hx1 : x.1 ∈ t''.map Prod.fst := List.mem_map_of_mem _ h
                        rw [hmap₂] at hx1
                        obtain ⟨y, hy, hy1⟩ := List.mem_map.mp hx1
                        have := key2 y hy
                        simp only
                        omega
                    · exact hspt'
                · obtain ⟨e, he, het⟩ := hlast'
                  refine ⟨e, ?_, het⟩
                  rw [List.getLast?_cons_cons, List.getLast?_cons_cons]
                  exact he

/-! ## Bridge: labeled positions of two items inside a schedule word -/

/-- The positions of `y` (labeled `true`) and `z` (labeled `false`) in a word,
in ascending order, starting the index count at `i`. -/
def posLabelsAux (y z : String) : List String → Nat → List (Nat × Bool)
  | [], _ => []
  | s :: rest, i =>
    (if s = y then [(i, true)] else if s = z then [(i, false)] else []) ++
      posLabelsAux y z rest (i + 1)

/-- The positions of `y` (true) and `z` (false) in a word, descending. -/
def posLabels (y z : String) (w : List String) : List (Nat × Bool) :=
  (posLabelsAux y z w 0).reverse

theorem posLabelsAux_lb (y z : String) :
    ∀ (w : List String) (i : Nat) (e : Nat × Bool), e ∈ posLabelsAux y z w i → i ≤ e.1 := by
  intro w
  induction w with
  | nil => intro i e h; simp [posLabelsAux] at h
  | cons s rest ih =>
    intro i e h
    unfold posLabelsAux at h
    rw [List.mem_append] at h
    rcases h with h | h
    · by_cases hsy : s = y
      · rw [if_pos hsy] at h
        simp at h
        rw [h]
      · rw [if_neg hsy] at h
        by_cases hsz : s = z
        · rw [if_pos hsz] at h
          simp at h
          rw [h]
        · rw [if_neg hsz] at h
          simp at h
    · have := ih (i + 1) e h
      omega

theorem mem_posLabelsAux (y z : String) (hyz : y ≠ z) :
    ∀ (w : List String) (i p : Nat) (b : Bool),
      ((p, b) ∈ posLabelsAux y z w i ↔
        i ≤ p ∧ w.get? (p - i) = some (if b then y else z)) := by
  intro w
  induction w with
  | nil =>
    intro i p b
    constructor
    · intro h; simp [posLabelsAux] at h
    · intro ⟨_, h⟩; simp at h
  | cons s rest ih =>
    intro i p b
    unfold posLabelsAux
    rw [List.mem_append]
    constructor
    · intro h
      rcases h with h | h
      · by_cases hsy : s = y
        · rw [if_pos hsy] at h
          simp at h
          obtain ⟨hp, hb⟩ := h
          subst hp
          subst hb
          refine ⟨le_refl _, ?_⟩
          simp [hsy]
        · rw [if_neg hsy] at h
          by_cases hsz : s = z
          · rw [if_pos hsz] at h
            simp at h
            obtain ⟨hp, hb⟩ := h
            subst hp
            subst hb
            refine ⟨le_refl _, ?_⟩
            simp [hsz]
          · rw [if_neg hsz] at h
            simp at h
      · obtain ⟨h1, h2⟩ := (ih (i + 1) p b).mp h
        refine ⟨by omega, ?_⟩
        have hpi : p - i = (p - (i + 1)) + 1 := by omega
        rw [hpi]
        simpa using h2
    · intro ⟨h1, h2⟩
      by_cases hpi : p = i
      · subst hpi
        left
        rw [Nat.sub_self] at h2
        have hs : s = if b then y else z := by simpa using h2
        cases b with
        | true =>
          simp at hs
          rw [if_pos hs]
          simp
        | false =>
          simp at hs
          have hsy : ¬ s = y := by rw [hs]; intro hh; exact hyz hh.symm
          rw [if_neg hsy, if_pos hs]
          simp
      · right
        refine (ih (i + 1) p b).mpr ⟨by omega, ?_⟩
        have hsplit : p - i = (p - (i + 1)) + 1 := by omega
        rw [hsplit] at h2
        simpa using h2

theorem posLabelsAux_asc (y z : String) :
    ∀ (w : List String) (i : Nat),
      (posLabelsAux y z w i).Pairwise (fun a b => a.1 < b.1) := by
  intro w
  induction w with
  | nil => intro i; simp [posLabelsAux]
  | cons s rest ih =>
    intro i
    unfold posLabelsAux
    rw [List.pairwise_append]
    refine ⟨?_, ih (i + 1), ?_⟩
    · by_cases hsy : s = y
      · rw [if_pos hsy]; simp
      · rw [if_neg hsy]
        by_cases hsz : s = z
        · rw [if_pos hsz]; simp
        · rw [if_neg hsz]; simp
    · intro a ha b hb
      have hb1 := posLabelsAux_lb y z rest (i + 1) b hb
      have ha1 : a.1 = i := by
        by_cases hsy : s = y
        · rw [if_pos hsy] at ha
          simp at ha
          rw [ha]
        · rw [if_neg hsy] at ha
          by_cases hsz : s = z
          · rw [if_pos hsz] at ha
            simp at ha
            rw [ha]
          · rw [if_neg hsz] at ha
            simp at ha
      omega

theorem countLab_append (b : Bool) (L1 L2 : List (Nat × Bool)) :
    countLab b (L1 ++ L2) = countLab b L1 + countLab b L2 := by
  unfold countLab
  rw [List.filter_append, List.length_append]

theorem countLab_reverse (b : Bool) (L : List (Nat × Bool)) :
    countLab b L.reverse = countLab b L := by
  unfold countLab
  rw [List.filter_reverse, List.length_reverse]

theorem countLab_true_posLabelsAux (y z : String) (hyz : y ≠ z) :
    ∀ (w : List String) (i : Nat),
      countLab true (posLabelsAux y z w i) = w.count y := by
  intro w
  induction w with
  | nil => intro i; simp [posLabelsAux, countLab_nil]
  | cons s rest ih =>
    intro i
    unfold posLabelsAux
    rw [countLab_append, ih, List.count_cons]
    by_cases hsy : s = y
    · rw [if_pos hsy]
      simp [countLab, hsy]
      omega
    · rw [if_neg hsy]
      by_cases hsz : s = z
      · rw [if_pos hsz]
        have : ¬ (s == y) = true := by simpa using hsy
        simp [countLab, this]
      · rw [if_neg hsz]
        simp [countLab_nil, hsy]

theorem countLab_false_posLabelsAux (y z : String) (hyz : y ≠ z) :
    ∀ (w : List String) (i : Nat),
      countLab false (posLabelsAux y z w i) = w.count z := by
  intro w
  induction w with
  | nil => intro i; simp [posLabelsAux, countLab_nil]
  | cons s rest ih =>
    intro i
    unfold posLabelsAux
    rw [countLab_append, ih, List.count_cons]
    by_cases hsy : s = y
    · rw [if_pos hsy]
      have hsz : ¬ s = z := by rw [hsy]; exact hyz
      simp [countLab, hsz]
    · rw [if_neg hsy]
      by_cases hsz : s = z
      · rw [if_pos hsz]
        simp [countLab, hsz]
        omega
      · rw [if_neg hsz]
        simp [countLab_nil, hsz]

theorem countLab_true_posLabels (y z : String) (hyz : y ≠ z) (w : List String) :
    countLab true (posLabels y z w) = w.count y := by
  unfold posLabels
  rw [countLab_reverse]
  exact countLab_true_posLabelsAux y z hyz w 0

theorem countLab_false_posLabels (y z : String) (hyz : y ≠ z) (w : List String) :
    countLab false (posLabels y z w) = w.count z := by
  unfold posLabels
  rw [countLab_reverse]
  exact countLab_false_posLabelsAux y z hyz w 0

theorem mem_posLabels (y z : String) (hyz : y ≠ z) (w : List String) (p : Nat) (b : Bool) :
    ((p, b) ∈ posLabels y z w ↔ w.get? p = some (if b then y else z)) := by
  unfold posLabels
  rw [List.mem_reverse, mem_posLabelsAux y z hyz w 0 p b]
  simp

theorem desc_posLabels (y z : String) (w : List String) : Desc (posLabels y z w) := by
  unfold posLabels Desc
  rw [List.pairwise_reverse]
  exact posLabelsAux_asc y z w 0

theorem labSpacedP_posLabels (y z : String) (hyz : y ≠ z) (w : List String) (G : Nat)
    (hsp : ∀ i j : Nat, ∀ x, i < j → w.get? i = some x → w.get? j = some x →
      i + G + 1 ≤ j) :
    LabSpacedP G (posLabels y z w) := by
  unfold posLabels LabSpacedP
  rw [List.pairwise_reverse]
  refine (posLabelsAux_asc y z w 0).imp_of_mem ?_
  intro a b ha hb hlt
  intro heq
  obtain ⟨pa, ba⟩ := a
  obtain ⟨pb, bb⟩ := b
  simp only at heq hlt ⊢
  obtain ⟨_, ha2⟩ := (mem_posLabelsAux y z hyz w 0 pa ba).mp ha
  obtain ⟨_, hb2⟩ := (mem_posLabelsAux y z hyz w 0 pb bb).mp hb
  rw [Nat.sub_zero] at ha2 hb2
  rw [heq] at hb2
  exact hsp pa pb (if ba then y else z) hlt ha2 hb2

theorem posLabels_getLast (y z : String) (hyz : y ≠ z) (w : List String)
    (h0 : w.get? 0 = some z) :
    (posLabels y z w).getLast? = some (0, false) := by
  unfold posLabels
  rw [List.getLast?_reverse]
  cases w with
  | nil => simp at h0
  | cons s rest =>
    have hs : s = z := by simpa using h0
    unfold posLabelsAux
    have hsy : ¬ s = y := by rw [hs]; intro hh; exact hyz hh.symm
    rw [if_neg hsy, if_pos hs]
    rfl

/-! ## Applying a relabeling back to the word -/

def applyLabels (y z : String) (L : List (Nat × Bool)) : List String → Nat → List String
  | [], _ => []
  | s :: rest, i =>
    (if (i, true) ∈ L then y else if (i, false) ∈ L then z else s) ::
      applyLabels y z L rest (i + 1)

theorem applyLabels_length (y z : String) (L : List (Nat × Bool)) :
    ∀ (w : List String) (i : Nat), (applyLabels y z L w i).length = w.length := by
  intro w
  induction w with
  | nil => intro i; rfl
  | cons s rest ih =>
    intro i
    unfold applyLabels
    rw [List.length_cons, List.length_cons, ih]

theorem applyLabels_get? (y z : String) (L : List (Nat × Bool)) :
    ∀ (w : List String) (i j : Nat),
      (applyLabels y z L w i).get? j = (w.get? j).map
        (fun s => if (i + j, true) ∈ L then y else if (i + j, false) ∈ L then z else s) := by
  intro w
  induction w with
  | nil => intro i j; simp [applyLabels]
  | cons s rest ih =>
    intro i j
    cases j with
    | zero =>
      unfold applyLabels
      simp
    | succ j' =>
      unfold applyLabels
      rw [List.get?_cons_succ, List.get?_cons_succ, ih (i + 1) j']
      have harith : i + 1 + j' = i + (j' + 1) := by omega
      rw [harith]

/-! ## Counting occurrences through positions -/

theorem count_by_get? : ∀ (l : List String) (x : String),
    l.count x = ((List.range l.length).filter (fun j => l.get? j == some x)).length := by
  intro l
  induction l with
  | nil => intro x; simp
  | cons a t ih =>
    intro x
    rw [List.count_cons, List.length_cons, List.range_succ_eq_map, List.filter_cons]
    have hcomp : ((List.range t.length).map Nat.succ).filter
        (fun j => (a :: t).get? j == some x) =
        ((List.range t.length).filter (fun j => t.get? j == some x)).map Nat.succ := by
      rw [List.map_filter]
      rfl
    rw [hcomp]
    by_cases hax : a = x
    · rw [if_pos (by simp [hax] : ((a :: t).get? 0 == some x) = true),
        if_pos (by simp [hax] : (a == x) = true)]
      rw [List.length_cons, List.length_map, ih x]
    · rw [if_neg (by simp [hax] : ¬ ((a :: t).get? 0 == some x) = true),
        if_neg (by simp [hax] : ¬ (a == x) = true)]
      rw [List.length_map, ih x]
      omega

theorem count_eq_of_get?_iff (l₁ l₂ : List String) (x : String)
    (hlen : l₁.length = l₂.length)
    (h : ∀ j, l₁.get? j = some x ↔ l₂.get? j = some x) :
    l₁.count x = l₂.count x := by
  rw [count_by_get?, count_by_get?, hlen]
  congr 1
  apply List.filter_congr
  intro j _
  by_cases h1 : l₁.get? j = some x
  · have e1 : (l₁.get? j == some x) = true := by rw [h1]; simp
    have e2 : (l₂.get? j == some x) = true := by rw [(h j).mp h1]; simp
    rw [e1, e2]
  · have h2 : ¬ l₂.get? j = some x := fun hh => h1 ((h j).mpr hh)
    have e1 : (l₁.get? j == some x) = false := by
      simp only [beq_eq_false_iff_ne, ne_eq]
      exact h1
    have e2 : (l₂.get? j == some x) = false := by
      simp only [beq_eq_false_iff_ne, ne_eq]
      exact h2
    rw [e1, e2]

/-! ## Structural facts about relabelings -/

theorem fst_nodup_label_unique :
    ∀ (L : List (Nat × Bool)), (L.map Prod.fst).Nodup →
      ∀ p b1 b2, (p, b1) ∈ L → (p, b2) ∈ L → b1 = b2 := by
  intro L
  induction L with
  | nil => intro _ p b1 b2 h; simp at h
  | cons e t ih =>
    intro hnd p b1 b2 h1 h2
    rw [List.map_cons, List.nodup_cons] at hnd
    rcases List.mem_cons.mp h1 with h1' | h1'
    · rcases List.mem_cons.mp h2 with h2' | h2'
      · rw [← h1'] at h2'
        injection h2' with _ hb
        exact hb.symm
      · exfalso
        apply hnd.1
        have hpe : e.1 = p := by rw [← h1']
        rw [hpe]
        exact List.mem_map_of_mem Prod.fst h2'
    · rcases List.mem_cons.mp h2 with h2' | h2'
      · exfalso
        apply hnd.1
        have hpe : e.1 = p := by rw [← h2']
        rw [hpe]
        exact List.mem_map_of_mem Prod.fst h1'
      · exact ih hnd.2 p b1 b2 h1' h2'

theorem spaced_of_mem (G : Nat) :
    ∀ (L : List (Nat × Bool)), L.Pairwise (fun a b => b.1 < a.1) → LabSpacedP G L →
      ∀ p q b c, (p, b) ∈ L → (q, c) ∈ L → q < p → b = c → q + G + 1 ≤ p := by
  intro L
  induction L with
  | nil => intro _ _ p q b c h; simp at h
  | cons e t ih =>
    intro hdesc hsp p q b c hp hq hlt heq
    rw [List.pairwise_cons] at hdesc
    unfold LabSpacedP at hsp
    rw [List.pairwise_cons] at hsp
    rcases List.mem_cons.mp hp with h1 | h1
    · rcases List.mem_cons.mp hq with h2 | h2
      · rw [← h1] at h2
        injection h2 with hpq _
        omega
      · have := hsp.1 (q, c) h2
        rw [← h1] at this
        simp at this
        exact this heq
    · rcases List.mem_cons.mp hq with h2 | h2
      · have := hdesc.1 (p, b) h1
        rw [← h2] at this
        simp at this
        omega
      · exact ih hdesc.2 hsp.2 p q b c h1 h2 hlt heq

theorem countLab_total : ∀ (L : List (Nat × Bool)),
    countLab false L + countLab true L = L.length := by
  intro L
  induction L with
  | nil => rfl
  | cons e L ih =>
    rw [countLab_cons, countLab_cons, List.length_cons]
    cases he : e.2 <;> simp [he] <;> omega

/--
Exchange lemma: if a spaced word starts with `z` and contains at least as
many `y`s as `z`s, the occurrences of `y` and `z` can be redistributed over
the same positions (all other items untouched) so that the word is still
spaced, is a permutation of the original, and starts with `y`.
-/
theorem exchange_core (G : Nat) (w : List String) (y z : String) (hyz : y ≠ z)
    (hsp : ∀ i j : Nat, ∀ x, i < j → w.get? i = some x → w.get? j = some x →
      i + G + 1 ≤ j)
    (h0 : w.get? 0 = some z)
    (hcnt : w.count z ≤ w.count y) :
    ∃ w' : List String,
      w'.length = w.length ∧
      w'.get? 0 = some y ∧
      (∀ i j : Nat, ∀ x, i < j → w'.get? i = some x → w'.get? j = some x →
        i + G + 1 ≤ j) ∧
      w'.Perm w ∧
      (∀ x, x ≠ y → x ≠ z → ∀ j, w'.get? j = some x ↔ w.get? j = some x) := by
  have hdesc : Desc (posLabels y z w) := desc_posLabels y z w
  have hspL : LabSpacedP G (posLabels y z w) := labSpacedP_posLabels y z hyz w G hsp
  have hcf : countLab false (posLabels y z w) = w.count z :=
    countLab_false_posLabels y z hyz w
  have hct : countLab true (posLabels y z w) = w.count y :=
    countLab_true_posLabels y z hyz w
  have hcz : 1 ≤ w.count z := by
    cases w with
    | nil => simp at h0
    | cons s rest =>
      have hs : s = z := by simpa using h0
      rw [List.count_cons]
      simp [hs]
  have hlastL : (posLabels y z w).getLast? = some (0, false) :=
    posLabels_getLast y z hyz w h0
  obtain ⟨L', hmap, hcnt', hsp', e, hlaste, hetrue⟩ :=
    relabel G (posLabels y z w).length (posLabels y z w) le_rfl hdesc hspL
      (by rw [hcf]; exact hcz) (by rw [hcf, hct]; exact hcnt)
      ⟨(0, false), hlastL, rfl⟩
  -- structural facts about the relabeled list
  have hlenL : L'.length = (posLabels y z w).length := by
    have h := congrArg List.length hmap
    simpa using h
  have hfstL' : (L'.map Prod.fst).Pairwise (fun a b => b < a) := by
    have h1 : ((posLabels y z w).map Prod.fst).Pairwise (fun a b => b < a) :=
      List.pairwise_map.mpr hdesc
    rw [← hmap] at h1
    exact h1
  have hdescL' : L'.Pairwise (fun a b => b.1 < a.1) := List.pairwise_map.mp hfstL'
  have hfst_nodup : (L'.map Prod.fst).Nodup := hfstL'.imp (fun h => ne_of_gt h)
  have huniq : ∀ p b1 b2, (p, b1) ∈ L' → (p, b2) ∈ L' → b1 = b2 :=
    fst_nodup_label_unique L' hfst_nodup
  have hmemf : ∀ p b, (p, b) ∈ L' → ∃ c, (p, c) ∈ posLabels y z w := by
    intro p b hpb
    have hmm : p ∈ L'.map Prod.fst := List.mem_map.mpr ⟨(p, b), hpb, rfl⟩
    rw [hmap] at hmm
    obtain ⟨q, hq, hq1⟩ := List.mem_map.mp hmm
    refine ⟨q.2, ?_⟩
    rw [← hq1]
    exact (show (q.1, q.2) = q from rfl) ▸ hq
  have hmemb : ∀ p c, (p, c) ∈ posLabels y z w → ∃ b, (p, b) ∈ L' := by
    intro p c hpc
    have hmm : p ∈ (posLabels y z w).map Prod.fst := List.mem_map.mpr ⟨(p, c), hpc, rfl⟩
    rw [← hmap] at hmm
    obtain ⟨q, hq, hq1⟩ := List.mem_map.mp hmm
    refine ⟨q.2, ?_⟩
    rw [← hq1]
    exact (show (q.1, q.2) = q from rfl) ▸ hq
  -- the rebuilt word and its pointwise description
  have hget : ∀ j, (applyLabels y z L' w 0).get? j = (w.get? j).map
      (fun s => if (j, true) ∈ L' then y else if (j, false) ∈ L' then z else s) := by
    intro j
    have h := applyLabels_get? y z L' w 0 j
    simpa using h
  have hy' : ∀ j, (applyLabels y z L' w 0).get? j = some y ↔ (j, true) ∈ L' := by
    intro j
    rw [hget j]
    constructor
    · intro h
      obtain ⟨s, hs, hfs⟩ := Option.map_eq_some'.mp h
      by_cases ht : (j, true) ∈ L'
      · exact ht
      · exfalso
        rw [if_neg ht] at hfs
        by_cases hf : (j, false) ∈ L'
        · rw [if_pos hf] at hfs
          exact hyz hfs.symm
        · rw [if_neg hf] at hfs
          rw [hfs] at hs
          have hp : (j, true) ∈ posLabels y z w :=
            (mem_posLabels y z hyz w j true).mpr (by simpa using hs)
          obtain ⟨b, hb⟩ := hmemb j true hp
          cases b with
          | true => exact ht hb
          | false => exact hf hb
    · intro ht
      obtain ⟨c, hc⟩ := hmemf j true ht
      have hj := (mem_posLabels y z hyz w j c).mp hc
      rw [hj, Option.map_some']
      rw [if_pos ht]
  have hz' : ∀ j, (applyLabels y z L' w 0).get? j = some z ↔ (j, false) ∈ L' := by
    intro j
    rw [hget j]
    constructor
    · intro h
      obtain ⟨s, hs, hfs⟩ := Option.map_eq_some'.mp h
      by_cases ht : (j, true) ∈ L'
      · rw [if_pos ht] at hfs
        exact absurd hfs hyz
      · by_cases hf : (j, false) ∈ L'
        · exact hf
        · exfalso
          rw [if_neg ht, if_neg hf] at hfs
          rw [hfs] at hs
          have hp : (j, false) ∈ posLabels y z w :=
            (mem_posLabels y z hyz w j false).mpr (by simpa using hs)
          obtain ⟨b, hb⟩ := hmemb j false hp
          cases b with
          | true => exact ht hb
          | false => exact hf hb
    · intro hf
      have hnt : ¬ (j, true) ∈ L' := by
        intro ht
        exact Bool.noConfusion (huniq j true false ht hf)
      obtain ⟨c, hc⟩ := hmemf j false hf
      have hj := (mem_posLabels y z hyz w j c).mp hc
      rw [hj, Option.map_some']
      rw [if_neg hnt, if_pos hf]
  have hx' : ∀ x, x ≠ y → x ≠ z → ∀ j,
      ((applyLabels y z L' w 0).get? j = some x ↔ w.get? j = some x) := by
    intro x hxy hxz j
    rw [hget j]
    constructor
    · intro h
      obtain ⟨s, hs, hfs⟩ := Option.map_eq_some'.mp h
      by_cases ht : (j, true) ∈ L'
      · rw [if_pos ht] at hfs
        exact absurd hfs.symm hxy
      · by_cases hf : (j, false) ∈ L'
        · rw [if_neg ht, if_pos hf] at hfs
          exact absurd hfs.symm hxz
        · rw [if_neg ht, if_neg hf] at hfs
          subst hfs
          exact hs
    · intro h
      have hnone : ∀ b, ¬ (j, b) ∈ L' := by
        intro b hb
        obtain ⟨c, hc⟩ := hmemf j b hb
        have hc2 := (mem_posLabels y z hyz w j c).mp hc
        rw [h] at hc2
        injection hc2 with hc2
        cases c with
        | true => exact hxy hc2
        | false => exact hxz hc2
      rw [h, Option.map_some', if_neg (hnone true), if_neg (hnone false)]
  -- the minimum position carries a true label
  have h0t : (0, true) ∈ L' := by
    have h1 : (L'.map Prod.fst).getLast? = some e.1 := by
      rw [List.getLast?_map, hlaste]
      rfl
    have h2 : ((posLabels y z w).map Prod.fst).getLast? = some 0 := by
      rw [List.getLast?_map, hlastL]
      rfl
    rw [hmap, h2] at h1
    injection h1 with h1
    have he : e = (0, true) := Prod.ext h1.symm hetrue
    rw [he] at hlaste
    exact List.mem_of_mem_getLast? hlaste
  have hhead : (applyLabels y z L' w 0).get? 0 = some y := (hy' 0).mpr h0t
  -- spacing of the rebuilt word
  have hspW' : ∀ i j : Nat, ∀ x, i < j → (applyLabels y z L' w 0).get? i = some x →
      (applyLabels y z L' w 0).get? j = some x → i + G + 1 ≤ j := by
    intro i j x hij hi hj
    by_cases hxy : x = y
    · subst hxy
      exact spaced_of_mem G L' hdescL' hsp' j i true true ((hy' j).mp hj)
        ((hy' i).mp hi) hij rfl
    · by_cases hxz : x = z
      · subst hxz
        exact spaced_of_mem G L' hdescL' hsp' j i false false ((hz' j).mp hj)
          ((hz' i).mp hi) hij rfl
      · exact hsp i j x hij ((hx' x hxy hxz i).mp hi) ((hx' x hxy hxz j).mp hj)
  -- multiset preservation
  have hnodupP : (posLabels y z (applyLabels y z L' w 0)).Nodup := by
    refine (desc_posLabels y z (applyLabels y z L' w 0)).imp ?_
    intro a b h hh
    rw [hh] at h
    exact lt_irrefl _ h
  have hnodupL' : L'.Nodup := List.Nodup.of_map Prod.fst hfst_nodup
  have hpermLab : (posLabels y z (applyLabels y z L' w 0)).Perm L' := by
    rw [List.perm_ext_iff_of_nodup hnodupP hnodupL']
    intro a
    obtain ⟨p, b⟩ := a
    rw [mem_posLabels y z hyz _ p b]
    cases b with
    | true => exact hy' p
    | false => exact hz' p
  have hcty : (applyLabels y z L' w 0).count y = w.count y := by
    have h1 := (countLab_true_posLabels y z hyz (applyLabels y z L' w 0)).symm
    have h2 : countLab true (posLabels y z (applyLabels y z L' w 0)) =
        countLab true L' := by
      unfold countLab
      rw [(hpermLab.filter _).length_eq]
    have htot := countLab_total L'
    have htot2 := countLab_total (posLabels y z w)
    have h3 : countLab true L' = countLab true (posLabels y z w) := by omega
    rw [h1, h2, h3, hct]
  have hctz : (applyLabels y z L' w 0).count z = w.count z := by
    have h1 := (countLab_false_posLabels y z hyz (applyLabels y z L' w 0)).symm
    have h2 : countLab false (posLabels y z (applyLabels y z L' w 0)) =
        countLab false L' := by
      unfold countLab
      rw [(hpermLab.filter _).length_eq]
    rw [h1, h2, hcnt', hcf]
  have hperm : (applyLabels y z L' w 0).Perm w := by
    rw [List.perm_iff_count]
    intro a
    by_cases hay : a = y
    · rw [hay]; exact hcty
    · by_cases haz : a = z
      · rw [haz]; exact hctz
      · exact count_eq_of_get?_iff _ _ a (applyLabels_length y z L' w 0) (hx' a hay haz)
  exact ⟨applyLabels y z L' w 0, applyLabels_length y z L' w 0, hhead, hspW', hperm, hx'⟩


/-! ## State invariants of the scheduling loop -/

theorem get?_append_singleton_cases {l : List String} {a x : String} {j : Nat}
    (h : (l ++ [a]).get? j = some x) :
    (j < l.length ∧ l.get? j = some x) ∨ (j = l.length ∧ x = a) := by
  by_cases hj : j < l.length
  · left
    refine ⟨hj, ?_⟩
    rwa [List.get?_append hj] at h
  · right
    have hlt : j < (l ++ [a]).length := (List.get?_eq_some.mp h).1
    rw [List.length_append, List.length_singleton] at hlt
    have hj' : j = l.length := by omega
    refine ⟨hj', ?_⟩
    rw [hj'] at h
    rw [List.get?_append_right (le_refl _)] at h
    simp at h
    exact h.symm

/-- The invariants of the scheduling loop state: pending counts are positive,
heap and cooldown queue are sorted, every pending item's name is unique, the
emitted prefix is spaced, and the last emitted occurrence of every pending
item is linked to its cooldown deadline. -/
structure GoodState (g : Int) (hp : List (Int × String)) (cd : List (Int × Int × String))
    (result : List String) (s : Int) : Prop where
  posH : ∀ e ∈ hp, e.1 ≤ -1
  posC : ∀ e ∈ cd, e.2.1 ≤ -1
  sortH : hp.Pairwise (fun a b => a.1 ≤ b.1)
  sortC : cd.Pairwise (fun a b => a.1 ≤ b.1)
  bndC : ∀ e ∈ cd, e.1 ≤ s + g
  uniq : (hp.map Prod.snd ++ cd.map (fun e => e.2.2)).Nodup
  hstep : (result.length : Int) = s
  spacedR : pairwiseSpaced result g
  lastH : ∀ e ∈ hp, ∀ j : Nat, result.get? j = some e.2 → (j : Int) + g + 1 ≤ s
  lastC : ∀ e ∈ cd, ∀ j : Nat, result.get? j = some e.2.2 → (j : Int) + g + 1 ≤ e.1

theorem goodState_drain (g : Int) (hp : List (Int × String)) (cd : List (Int × Int × String))
    (result : List String) (s : Int) (hgs : GoodState g hp cd result s) :
    GoodState g (drainCooldown s hp cd).1 (drainCooldown s hp cd).2 result s := by
  obtain ⟨posH, posC, sortH, sortC, bndC, uniq, hstep, spacedR, lastH, lastC⟩ := hgs
  have hpos := drainCooldown_pos s cd hp posH posC
  have hsort := drainCooldown_sorted s cd hp sortH sortC
  refine ⟨hpos.1, hpos.2, hsort.1, hsort.2, ?_, ?_, hstep, spacedR, ?_, ?_⟩
  · intro e he
    exact bndC e (drainCooldown_sub s cd hp e he)
  · exact (drainCooldown_names s cd hp).nodup_iff.mpr uniq
  · intro e he j hj
    rcases drainCooldown_heapMem s cd hp e he with h | ⟨r, hr, hrs⟩
    · exact lastH e h j hj
    · have hc := lastC (r, e.1, e.2) hr j hj
      simp only at hc
      omega
  · intro e he j hj
    exact lastC e (drainCooldown_sub s cd hp e he) j hj

theorem goodState_place (g : Int) (negc : Int) (name : String)
    (heapRest : List (Int × String)) (cd' : List (Int × Int × String))
    (result : List String) (s : Int)
    (hgs : GoodState g ((negc, name) :: heapRest) cd' result s) :
    GoodState g heapRest
      (if -negc - 1 > 0 then cd' ++ [(s + 1 + g, -(-negc - 1), name)] else cd')
      (result ++ [name]) (s + 1) := by
  obtain ⟨posH, posC, sortH, sortC, bndC, uniq, hstep, spacedR, lastH, lastC⟩ := hgs
  have huniq' : ((name :: heapRest.map Prod.snd) ++ cd'.map (fun e => e.2.2)).Nodup := by
    simpa using uniq
  rw [List.cons_append, List.nodup_cons] at huniq'
  have hnameH : name ∉ heapRest.map Prod.snd := fun hmem =>
    huniq'.1 (List.mem_append.mpr (Or.inl hmem))
  have hnameC : name ∉ cd'.map (fun e => e.2.2) := fun hmem =>
    huniq'.1 (List.mem_append.mpr (Or.inr hmem))
  have hrestNodup : (heapRest.map Prod.snd ++ cd'.map (fun e => e.2.2)).Nodup := huniq'.2
  have hlastName : ∀ j : Nat, result.get? j = some name → (j : Int) + g + 1 ≤ s :=
    fun j hj => lastH (negc, name) (List.mem_cons_self _ _) j hj
  have hstep' : (((result ++ [name]).length : Nat) : Int) = s + 1 := by
    rw [List.length_append, List.length_singleton]
    push_cast
    omega
  have hspaced' : pairwiseSpaced (result ++ [name]) g := by
    refine pairwiseSpaced_append_singleton result g name spacedR ?_
    intro j hj
    have := hlastName j hj
    omega
  have hlastH' : ∀ e ∈ heapRest, ∀ j : Nat,
      (result ++ [name]).get? j = some e.2 → (j : Int) + g + 1 ≤ s + 1 := by
    intro e he j hj
    rcases get?_append_singleton_cases hj with ⟨_, hjget⟩ | ⟨_, hxa⟩
    · have := lastH e (List.mem_cons_of_mem _ he) j hjget
      omega
    · exact absurd (hxa ▸ List.mem_map_of_mem Prod.snd he) hnameH
  have hlastC'old : ∀ e ∈ cd', ∀ j : Nat,
      (result ++ [name]).get? j = some e.2.2 → (j : Int) + g + 1 ≤ e.1 := by
    intro e he j hj
    rcases get?_append_singleton_cases hj with ⟨_, hjget⟩ | ⟨_, hxa⟩
    · exact lastC e he j hjget
    · exact absurd (hxa ▸ List.mem_map_of_mem (fun e => e.2.2) he) hnameC
  by_cases hcl : -negc - 1 > 0
  · rw [if_pos hcl]
    refine ⟨?_, ?_, ?_, ?_, ?_, ?_, hstep', hspaced', hlastH', ?_⟩
    · exact fun e he => posH e (List.mem_cons_of_mem _ he)
    · intro e he
      rcases List.mem_append.mp he with h | h
      · exact posC e h
      · rw [List.mem_singleton] at h
        rw [h]
        simp only
        omega
    · exact (List.pairwise_cons.mp sortH).2
    · rw [List.pairwise_append]
      refine ⟨sortC, by simp, ?_⟩
      intro a ha b hb
      rw [List.mem_singleton] at hb
      rw [hb]
      have := bndC a ha
      simp only
      omega
    · intro e he
      rcases List.mem_append.mp he with h | h
      · have := bndC e h
        omega
      · rw [List.mem_singleton] at h
        rw [h]
    · have hperm : (heapRest.map Prod.snd ++
          ((cd' ++ [(s + 1 + g, -(-negc - 1), name)]).map (fun e => e.2.2))).Perm
          (name :: (heapRest.map Prod.snd ++ cd'.map (fun e => e.2.2))) := by
        rw [List.map_append]
        rw [List.perm_iff_count]
        intro a
        simp only [List.count_append, List.count_cons, List.map_cons, List.map_nil,
          List.count_nil, List.count_singleton]
        by_cases hax : a = name <;> simp [hax] <;> omega
      refine hperm.nodup_iff.mpr ?_
      rw [List.nodup_cons]
      exact ⟨huniq'.1, hrestNodup⟩
    · intro e he j hj
      rcases List.mem_append.mp he with h | h
      · exact hlastC'old e h j hj
      · rw [List.mem_singleton] at h
        subst h
        simp only at hj ⊢
        rcases get?_append_singleton_cases hj with ⟨_, hjget⟩ | ⟨hjl, _⟩
        · have := hlastName j hjget
          omega
        · have : (j : Int) = s := by rw [hjl]; exact hstep
          omega
  · rw [if_neg hcl]
    refine ⟨?_, posC, ?_, sortC, ?_, hrestNodup, hstep', hspaced', hlastH', hlastC'old⟩
    · exact fun e he => posH e (List.mem_cons_of_mem _ he)
    · exact (List.pairwise_cons.mp sortH).2
    · intro e he
      have := bndC e he
      omega

/-- A completion of the current loop state: a word holding exactly the pending
occurrences, spaced, and not using a cooling-down item before its ready step. -/
def IsCompletion (g : Int) (hp : List (Int × String)) (cd : List (Int × Int × String))
    (s : Int) (w : List String) : Prop :=
  w.Perm (heapOcc hp ++ cdOcc cd) ∧ pairwiseSpaced w g ∧
  ∀ e ∈ cd, ∀ j : Nat, (j : Int) < e.1 - s → w.get? j ≠ some e.2.2

/-- Any result the loop emits from a good state is spaced (greedy soundness). -/
theorem schedLoop_ok_spaced (g total : Int) :
    ∀ (fuel : Nat) (hp : List (Int × String)) (cd : List (Int × Int × String))
      (result : List String) (s : Int) (res : List String),
      GoodState g hp cd result s →
      schedLoop g total fuel hp cd result s = .ok res →
      pairwiseSpaced res g := by
  intro fuel
  induction fuel with
  | zero => intro hp cd result s res _ hrun; cases hrun
  | succ fuel ih =>
    intro hp cd result s res hgs hrun
    unfold schedLoop at hrun
    by_cases hterm : hp = [] ∧ cd = []
    · rw [if_pos hterm] at hrun
      injection hrun with hrun
      rw [← hrun]
      exact hgs.spacedR
    · rw [if_neg hterm] at hrun
      rcases hdrain : drainCooldown s hp cd with ⟨heap', cd'⟩
      rw [hdrain] at hrun
      have hgs' : GoodState g heap' cd' result s := by
        have h := goodState_drain g hp cd result s hgs
        rw [hdrain] at h
        exact h
      cases heap' with
      | nil =>
        by_cases hne : (result.length : Int) ≠ total
        · rw [if_pos hne] at hrun; cases hrun
        · rw [if_neg hne] at hrun
          injection hrun with hrun
          rw [← hrun]
          exact hgs'.spacedR
      | cons hd heapRest =>
        rcases hd with ⟨negc, name⟩
        simp only [] at hrun
        have hplace := goodState_place g negc name heapRest cd' result s hgs'
        by_cases hcl : -negc - 1 > 0
        · rw [if_pos hcl] at hrun hplace
          exact ih heapRest _ (result ++ [name]) (s + 1) res hplace hrun
        · rw [if_neg hcl] at hrun hplace
          exact ih heapRest cd' (result ++ [name]) (s + 1) res hplace hrun

/-- The loop itself only raises the two `ValueError`s of the Python code. -/
theorem schedLoop_error_shape (g total : Int) :
    ∀ (fuel : Nat) (hp : List (Int × String)) (cd : List (Int × Int × String))
      (result : List String) (s : Int) (e : SchedError),
      schedLoop g total fuel hp cd result s = .error e →
      e = .outOfFuel ∨ e = .heapEmptyWhileRemain := by
  intro fuel
  induction fuel with
  | zero =>
    intro hp cd result s e hrun
    injection hrun with hrun
    exact Or.inl hrun.symm
  | succ fuel ih =>
    intro hp cd result s e hrun
    unfold schedLoop at hrun
    by_cases hterm : hp = [] ∧ cd = []
    · rw [if_pos hterm] at hrun; cases hrun
    · rw [if_neg hterm] at hrun
      rcases hdrain : drainCooldown s hp cd with ⟨heap', cd'⟩
      rw [hdrain] at hrun
      cases heap' with
      | nil =>
        by_cases hne : (result.length : Int) ≠ total
        · rw [if_pos hne] at hrun
          injection hrun with hrun
          exact Or.inr hrun.symm
        · rw [if_neg hne] at hrun; cases hrun
      | cons hd heapRest =>
        rcases hd with ⟨negc, name⟩
        simp only [] at hrun
        by_cases hcl : -negc - 1 > 0
        · rw [if_pos hcl] at hrun
          exact ih heapRest _ (result ++ [name]) (s + 1) e hrun
        · rw [if_neg hcl] at hrun
          exact ih heapRest cd' (result ++ [name]) (s + 1) e hrun

/-- The initial loop state of `_schedule_with_gap` satisfies the invariants. -/
theorem goodState_init (tracks : List (String × Int)) (g : Int) :
    GoodState g (heapify ((_count_map tracks).map (fun p => (-p.2, p.1)))) [] [] 0 := by
  refine ⟨?_, ?_, heapify_sorted _, List.Pairwise.nil, ?_, ?_, by simp, ?_, ?_, ?_⟩
  · intro e he
    have hmem : e ∈ (_count_map tracks).map (fun p => (-p.2, p.1)) :=
      (heapify_perm _).mem_iff.mp he
    obtain ⟨p, hp, hpe⟩ := List.mem_map.mp hmem
    have := count_map_pos tracks p hp
    rw [← hpe]
    simp only
    omega
  · intro e he; cases he
  · intro e he; cases he
  · have h1 : ((heapify ((_count_map tracks).map (fun p => (-p.2, p.1)))).map Prod.snd).Perm
        (((_count_map tracks).map (fun p => (-p.2, p.1))).map Prod.snd) :=
      (heapify_perm _).map Prod.snd
    have h2 : ((_count_map tracks).map (fun p => (-p.2, p.1))).map Prod.snd =
        (_count_map tracks).map Prod.fst := by
      rw [List.map_map]
      rfl
    rw [h2] at h1
    have h3 := h1.nodup_iff.mpr (count_map_keys_nodup tracks)
    simpa using h3
  · intro i j x _ hi _
    simp at hi
  · intro e _ j hj
    simp at hj
  · intro e he
    cases he

/-- `_schedule_with_gap` never trips its own safety check: the
`AssertionError` path is dead code. -/
theorem schedule_with_gap_no_gapViolated (tracks : List (String × Int)) (g : Int) :
    _schedule_with_gap tracks g ≠ .error .gapViolated := by
  unfold _schedule_with_gap
  by_cases hempty : _count_map tracks = []
  · rw [if_pos hempty]
    intro h; cases h
  · rw [if_neg hempty]
    by_cases hg0 : g ≤ 0
    · rw [if_pos hg0]
      intro h; cases h
    · rw [if_neg hg0]
      rcases hrun : schedLoop g (sumVals (_count_map tracks))
          ((sumVals (_count_map tracks)).toNat + 1)
          (heapify ((_count_map tracks).map (fun p => (-p.2, p.1)))) [] [] 0 with e | result
      · rw [hrun]
        intro h
        injection h with h
        rcases schedLoop_error_shape g (sumVals (_count_map tracks)) _ _ _ _ _ e hrun
          with h1 | h1 <;> rw [h1] at h <;> cases h
      · rw [hrun]
        simp only []
        by_cases hne : (result.length : Int) ≠ sumVals (_count_map tracks)
        · rw [if_pos hne]
          intro h
          injection h with h
          cases h
        · rw [if_neg hne]
          have hsp : pairwiseSpaced result g :=
            schedLoop_ok_spaced g (sumVals (_count_map tracks)) _ _ _ _ _ _
              (goodState_init tracks g) hrun
          have hva : valid_all result g = true := valid_all_of_pairwiseSpaced result g hsp
          rw [if_neg (by rw [hva]; simp : ¬ (g > 0 ∧ valid_all result g = false))]
          intro h
          cases h

theorem count_replicate_ite (n : Nat) (b a : String) :
    (List.replicate n b).count a = if a = b then n else 0 := by
  by_cases h : a = b
  · subst h
    rw [List.count_replicate_self, if_pos rfl]
  · rw [if_neg h, List.count_eq_zero]
    intro hmem
    exact h (List.eq_of_mem_replicate hmem)

theorem count_cons_ite (b a : String) (l : List String) :
    (b :: l).count a = l.count a + if a = b then 1 else 0 := by
  by_cases h : a = b
  · subst h
    rw [if_pos rfl]
    simp [List.count_cons]
  · rw [if_neg h, List.count_cons]
    have hb : (b == a) = false := by
      simp only [beq_eq_false_iff_ne, ne_eq]
      exact fun hh => h hh.symm
    rw [hb]
    simp

theorem pairwiseSpaced_iff_nat (w : List String) (g : Int) (hg : 0 ≤ g) :
    pairwiseSpaced w g ↔
      (∀ i j : Nat, ∀ x, i < j → w.get? i = some x → w.get? j = some x →
        i + g.toNat + 1 ≤ j) := by
  constructor
  · intro h i j x hij hi hj
    have := h i j x hij hi hj
    omega
  · intro h i j x hij hi hj
    have := h i j x hij hi hj
    omega

/-- Greedy completeness: if the current state has a completion (a spaced,
cooldown-respecting ordering of everything pending), the loop succeeds. -/
theorem schedLoop_complete (g total : Int) (hg : 1 ≤ g) :
    ∀ (fuel : Nat) (hp : List (Int × String)) (cd : List (Int × Int × String))
      (result : List String) (s : Int) (w : List String),
      GoodState g hp cd result s →
      IsCompletion g hp cd s w →
      (heapOcc hp ++ cdOcc cd).length + 1 ≤ fuel →
      ((result.length : Int) + ((heapOcc hp).length : Int) + ((cdOcc cd).length : Int)
        = total) →
      ∃ res, schedLoop g total fuel hp cd result s = .ok res := by
  intro fuel
  induction fuel with
  | zero => intro hp cd result s w _ _ hfuel _; omega
  | succ fuel ih =>
    intro hp cd result s w hgs hcomp hfuel hlen
    unfold schedLoop
    by_cases hterm : hp = [] ∧ cd = []
    · rw [if_pos hterm]
      exact ⟨result, rfl⟩
    · rw [if_neg hterm]
      rcases hdrain : drainCooldown s hp cd with ⟨heap', cd'⟩
      have hgs' : GoodState g heap' cd' result s := by
        have h := goodState_drain g hp cd result s hgs
        rw [hdrain] at h
        exact h
      have hfront : ∀ f ∈ cd', s < f.1 := by
        have h := drainCooldown_front s cd hp hgs.sortC
        rw [hdrain] at h
        exact h
      have hsub : ∀ f ∈ cd', f ∈ cd := by
        have h := drainCooldown_sub s cd hp
        rw [hdrain] at h
        exact h
      have hperm0 : (heapOcc heap' ++ cdOcc cd').Perm (heapOcc hp ++ cdOcc cd) := by
        have h := drainCooldown_spec s cd hp
        rw [hdrain] at h
        exact h
      obtain ⟨hwperm0, hwsp, hwdel0⟩ := hcomp
      have hwperm : w.Perm (heapOcc heap' ++ cdOcc cd') := hwperm0.trans hperm0.symm
      have hwdel : ∀ e ∈ cd', ∀ j : Nat, (j : Int) < e.1 - s → w.get? j ≠ some e.2.2 :=
        fun e he => hwdel0 e (hsub e he)
      have hlen' : (result.length : Int) + ((heapOcc heap').length : Int) +
          ((cdOcc cd').length : Int) = total := by
        have h := hperm0.length_eq
        rw [List.length_append, List.length_append] at h
        omega
      cases heap' with
      | nil =>
        have hwnil : w = [] := by
          cases hwc : w with
          | nil => rfl
          | cons a v =>
            exfalso
            have ha : a ∈ heapOcc ([] : List (Int × String)) ++ cdOcc cd' :=
              hwperm.mem_iff.mp (hwc ▸ List.mem_cons_self a v)
            simp only [heapOcc, List.flatMap_nil, List.nil_append] at ha
            obtain ⟨e, he, hea⟩ := mem_cdOcc ha
            have hdel := hwdel e he 0 (by have := hfront e he; omega)
            rw [hwc] at hdel
            exact hdel (by rw [hea]; rfl)
        have hlencd : ((cdOcc cd').length : Int) = 0 := by
          have h := hwperm.length_eq
          rw [hwnil] at h
          simp only [heapOcc, List.flatMap_nil, List.nil_append, List.length_nil] at h
          omega
        have hocc0 : ((heapOcc ([] : List (Int × String))).length : Int) = 0 := by
          simp [heapOcc]
        rw [if_neg (by omega : ¬ (result.length : Int) ≠ total)]
        exact ⟨result, rfl⟩
      | cons hd heapRest =>
        rcases hd with ⟨negc, name⟩
        simp only []
        have hnegc : negc ≤ -1 := hgs'.posH (negc, name) (List.mem_cons_self _ _)
        have hocc : heapOcc ((negc, name) :: heapRest) =
            List.replicate (-negc).toNat name ++ heapOcc heapRest := by
          simp [heapOcc, List.flatMap_cons]
        have hwne : w ≠ [] := by
          intro h
          have hwl := hwperm.length_eq
          rw [h, hocc] at hwl
          simp only [List.length_nil, List.length_append, List.length_replicate] at hwl
          omega
        obtain ⟨z, hz0⟩ : ∃ z, w.get? 0 = some z := by
          cases w with
          | nil => exact absurd rfl hwne
          | cons a v => exact ⟨a, rfl⟩
        have hz : z ∈ heapOcc ((negc, name) :: heapRest) := by
          have hmem : z ∈ heapOcc ((negc, name) :: heapRest) ++ cdOcc cd' :=
            hwperm.mem_iff.mp (List.get?_mem hz0)
          rcases List.mem_append.mp hmem with h | h
          · exact h
          · exfalso
            obtain ⟨e, he, hea⟩ := mem_cdOcc h
            exact hwdel e he 0 (by have := hfront e he; omega) (by rw [hea]; exact hz0)
        obtain ⟨ez, hezmem, hezname⟩ := mem_heapOcc hz
        have hcmp : negc ≤ ez.1 := by
          rcases List.mem_cons.mp hezmem with h | h
          · rw [h]
          · exact (List.pairwise_cons.mp hgs'.sortH).1 ez h
        have hHnodup : (((negc, name) :: heapRest).map Prod.snd).Nodup :=
          (List.nodup_append.mp hgs'.uniq).1
        have hdisj : ∀ x, x ∈ ((negc, name) :: heapRest).map Prod.snd →
            x ∉ cd'.map (fun e => e.2.2) := by
          have h := (List.nodup_append.mp hgs'.uniq).2.2
          exact fun x hx hx' => h hx hx'
        have hnameheap : name ∈ ((negc, name) :: heapRest).map Prod.snd := by simp
        have hzheap : z ∈ ((negc, name) :: heapRest).map Prod.snd := by
          rw [← hezname]
          exact List.mem_map_of_mem Prod.snd hezmem
        have hcname : w.count name = (-negc).toNat := by
          rw [hwperm.count_eq, List.count_append]
          have h1 : (heapOcc ((negc, name) :: heapRest)).count name = (-negc).toNat := by
            have h := count_heapOcc_mem ((negc, name) :: heapRest) hHnodup (negc, name)
              (List.mem_cons_self _ _)
            simpa using h
          have h2 : (cdOcc cd').count name = 0 :=
            count_cdOcc_of_not_mem cd' name (fun e he hee =>
              hdisj name hnameheap (hee ▸ List.mem_map_of_mem (fun e => e.2.2) he))
          omega
        have hcz : w.count z = (-ez.1).toNat := by
          rw [hwperm.count_eq, List.count_append]
          have h1 : (heapOcc ((negc, name) :: heapRest)).count z = (-ez.1).toNat := by
            have h := count_heapOcc_mem ((negc, name) :: heapRest) hHnodup ez hezmem
            rw [hezname] at h
            exact h
          have h2 : (cdOcc cd').count z = 0 :=
            count_cdOcc_of_not_mem cd' z (fun e he hee =>
              hdisj z hzheap (hee ▸ List.mem_map_of_mem (fun e => e.2.2) he))
          omega
        have hcountdom : w.count z ≤ w.count name := by
          rw [hcname, hcz]
          omega
        have hexch : ∃ w₂ : List String, w₂.get? 0 = some name ∧ pairwiseSpaced w₂ g ∧
            w₂.Perm w ∧
            (∀ x, x ≠ name → x ≠ z → ∀ j, (w₂.get? j = some x ↔ w.get? j = some x)) := by
          by_cases hyz : name = z
          · exact ⟨w, by rw [hyz]; exact hz0, hwsp, List.Perm.refl w,
              fun x _ _ j => Iff.rfl⟩
          · obtain ⟨w₂, _, h0, hsp2, hperm2, hpos2⟩ := exchange_core g.toNat w name z hyz
              ((pairwiseSpaced_iff_nat w g (by omega)).mp hwsp) hz0 hcountdom
            exact ⟨w₂, h0, (pairwiseSpaced_iff_nat w₂ g (by omega)).mpr hsp2, hperm2, hpos2⟩
        obtain ⟨w₂, hw₂0, hw₂sp, hw₂perm, hw₂pos⟩ := hexch
        cases w₂ with
        | nil => simp at hw₂0
        | cons y₀ v₂ =>
        have hy₀ : name = y₀ := by
          have h : some y₀ = some name := hw₂0
          injection h with h
          exact h.symm
        subst hy₀
        have hvsp : pairwiseSpaced v₂ g := pairwiseSpaced_tail name v₂ g hw₂sp
        have hvget : ∀ j : Nat, v₂.get? j = (name :: v₂).get? (j + 1) := fun j => rfl
        -- the new completion's delay constraints
        have hdelv : ∀ e ∈ cd', ∀ j : Nat, (j : Int) < e.1 - (s + 1) →
            v₂.get? j ≠ some e.2.2 := by
          intro e he j hj hjv
          have hxne : e.2.2 ∉ ((negc, name) :: heapRest).map Prod.snd := by
            intro hx
            exact hdisj e.2.2 hx (List.mem_map_of_mem (fun e => e.2.2) he)
          have hxname : e.2.2 ≠ name := by
            intro h
            exact hxne (h ▸ hnameheap)
          have hxz : e.2.2 ≠ z := by
            intro h
            exact hxne (h ▸ hzheap)
          have hw2j : (name :: v₂).get? (j + 1) = some e.2.2 := hjv
          have hwj : w.get? (j + 1) = some e.2.2 :=
            (hw₂pos e.2.2 hxname hxz (j + 1)).mp hw2j
          exact hwdel e he (j + 1) (by push_cast; omega) hwj
        have hdelnew : ∀ j : Nat, (j : Int) < g → v₂.get? j ≠ some name := by
          intro j hj hjv
          have hw2j : (name :: v₂).get? (j + 1) = some name := hjv
          have hsp2 := (pairwiseSpaced_iff_nat (name :: v₂) g (by omega)).mp hw₂sp
          have := hsp2 0 (j + 1) name (by omega) hw₂0 hw2j
          omega
        have hplace := goodState_place g negc name heapRest cd' result s hgs'
        by_cases hcl : -negc - 1 > 0
        · rw [if_pos hcl]
          rw [if_pos hcl] at hplace
          have hcdocc : cdOcc (cd' ++ [(s + 1 + g, -(-negc - 1), name)]) =
              cdOcc cd' ++ List.replicate (-negc - 1).toNat name := by
            have h2 : -(-(-negc - 1)) = -negc - 1 := by ring
            simp [cdOcc, List.flatMap_append, List.flatMap_cons, h2]
            omega
          have hpermv : v₂.Perm (heapOcc heapRest ++
              cdOcc (cd' ++ [(s + 1 + g, -(-negc - 1), name)])) := by
            rw [List.perm_iff_count]
            intro a
            have h1 : (name :: v₂).count a = w.count a := hw₂perm.count_eq a
            have h2 : w.count a = (heapOcc ((negc, name) :: heapRest) ++ cdOcc cd').count a :=
              hwperm.count_eq a
            rw [hocc] at h2
            rw [hcdocc]
            rw [count_cons_ite] at h1
            rw [List.count_append, List.count_append, count_replicate_ite] at h2
            rw [List.count_append, List.count_append, count_replicate_ite]
            by_cases han : a = name
            · rw [if_pos han] at h1 h2 ⊢
              omega
            · rw [if_neg han] at h1 h2 ⊢
              omega
          have hcompl2 : IsCompletion g heapRest
              (cd' ++ [(s + 1 + g, -(-negc - 1), name)]) (s + 1) v₂ := by
            refine ⟨hpermv, hvsp, ?_⟩
            intro e he j hj
            rcases List.mem_append.mp he with h | h
            · exact hdelv e h j hj
            · rw [List.mem_singleton] at h
              subst h
              simp only at hj ⊢
              exact hdelnew j (by omega)
          have hfuel2 : (heapOcc heapRest ++
              cdOcc (cd' ++ [(s + 1 + g, -(-negc - 1), name)])).length + 1 ≤ fuel := by
            have h := hperm0.length_eq
            rw [hocc] at h
            rw [hcdocc]
            simp only [List.length_append, List.length_replicate] at h hfuel ⊢
            omega
          have hlen2 : (((result ++ [name]).length : Nat) : Int) +
              ((heapOcc heapRest).length : Int) +
              ((cdOcc (cd' ++ [(s + 1 + g, -(-negc - 1), name)])).length : Int) = total := by
            rw [hcdocc]
            rw [hocc] at hlen'
            simp only [List.length_append, List.length_singleton,
              List.length_replicate] at hlen' ⊢
            push_cast at hlen' ⊢
            omega
          exact ih heapRest _ (result ++ [name]) (s + 1) v₂ hplace hcompl2 hfuel2 hlen2
        · rw [if_neg hcl]
          rw [if_neg hcl] at hplace
          have hneg1 : negc = -1 := by omega
          have hone : List.replicate (-negc).toNat name = [name] := by
            rw [hneg1]
            rfl
          have hpermv : v₂.Perm (heapOcc heapRest ++ cdOcc cd') := by
            rw [List.perm_iff_count]
            intro a
            have h1 : (name :: v₂).count a = w.count a := hw₂perm.count_eq a
            have h2 : w.count a = (heapOcc ((negc, name) :: heapRest) ++ cdOcc cd').count a :=
              hwperm.count_eq a
            rw [hocc] at h2
            rw [count_cons_ite] at h1
            rw [List.count_append, List.count_append, count_replicate_ite] at h2
            rw [List.count_append]
            by_cases han : a = name
            · rw [if_pos han] at h1 h2
              omega
            · rw [if_neg han] at h1 h2
              omega
          have hcompl2 : IsCompletion g heapRest cd' (s + 1) v₂ := by
            refine ⟨hpermv, hvsp, ?_⟩
            intro e he j hj
            exact hdelv e he j hj
          have hfuel2 : (heapOcc heapRest ++ cdOcc cd').length + 1 ≤ fuel := by
            have h := hperm0.length_eq
            rw [hocc, hone] at h
            simp only [List.length_append, List.length_singleton] at h hfuel ⊢
            omega
          have hlen2 : (((result ++ [name]).length : Nat) : Int) +
              ((heapOcc heapRest).length : Int) + ((cdOcc cd').length : Int) = total := by
            rw [hocc, hone] at hlen'
            simp only [List.length_append, List.length_singleton] at hlen' ⊢
            push_cast at hlen' ⊢
            omega
          exact ih heapRest cd' (result ++ [name]) (s + 1) v₂ hplace hcompl2 hfuel2 hlen2

/-- Completeness of `_schedule_with_gap`: if any spaced ordering of the merged
counts exists at gap `g ≥ 1`, the deterministic scheduler succeeds at `g`. -/
theorem schedule_with_gap_complete (tracks : List (String × Int)) (g : Int) (hg : 1 ≤ g)
    (w : List String) (hperm : w.Perm (expandCounts (_count_map tracks)))
    (hsp : pairwiseSpaced w g) :
    ∃ res, _schedule_with_gap tracks g = .ok res := by
  unfold _schedule_with_gap
  by_cases hempty : _count_map tracks = []
  · rw [if_pos hempty]
    exact ⟨[], rfl⟩
  · rw [if_neg hempty]
    rw [if_neg (by omega : ¬ g ≤ 0)]
    have hocc0 : (heapOcc (heapify ((_count_map tracks).map (fun p => (-p.2, p.1))))).Perm
        (expandCounts (_count_map tracks)) := by
      have h1 := List.Perm.flatMap_right
        (fun e : Int × String => List.replicate (-e.1).toNat e.2)
        (heapify_perm ((_count_map tracks).map (fun p => (-p.2, p.1))))
      have h2 : (heapOcc (heapify ((_count_map tracks).map (fun p => (-p.2, p.1))))).Perm
          (heapOcc ((_count_map tracks).map (fun p => (-p.2, p.1)))) := h1
      rw [heapOcc_map_counts] at h2
      exact h2
    have hcompl : IsCompletion g
        (heapify ((_count_map tracks).map (fun p => (-p.2, p.1)))) [] 0 w := by
      refine ⟨?_, hsp, ?_⟩
      · refine hperm.trans ?_
        have hcd : cdOcc ([] : List (Int × Int × String)) = [] := rfl
        rw [hcd, List.append_nil]
        exact hocc0.symm
      · intro e he
        cases he
    have hlenE := expandCounts_length (_count_map tracks) (count_map_pos tracks)
    have hloc := hocc0.length_eq
    have hfuel : (heapOcc (heapify ((_count_map tracks).map (fun p => (-p.2, p.1)))) ++
        cdOcc ([] : List (Int × Int × String))).length + 1 ≤
        (sumVals (_count_map tracks)).toNat + 1 := by
      rw [List.length_append]
      have hcd : (cdOcc ([] : List (Int × Int × String))).length = 0 := rfl
      omega
    have hlen : ((([] : List String).length : Int) +
        ((heapOcc (heapify ((_count_map tracks).map (fun p => (-p.2, p.1))))).length : Int) +
        ((cdOcc ([] : List (Int × Int × String))).length : Int) =
        sumVals (_count_map tracks)) := by
      have hcd : (cdOcc ([] : List (Int × Int × String))).length = 0 := rfl
      simp only [List.length_nil]
      omega
    obtain ⟨res, hres⟩ := schedLoop_complete g (sumVals (_count_map tracks)) hg
      ((sumVals (_count_map tracks)).toNat + 1)
      (heapify ((_count_map tracks).map (fun p => (-p.2, p.1)))) [] [] 0 w
      (goodState_init tracks g) hcompl hfuel hlen
    rw [hres]
    simp only []
    have hpermres := schedLoop_perm g (sumVals (_count_map tracks)) _ _ _ _ _ res
      (goodState_init tracks g).posH (goodState_init tracks g).posC hlen hres
    have hlenres : (res.length : Int) = sumVals (_count_map tracks) := by
      have h3 := hpermres.length_eq
      rw [List.length_append, List.length_append] at h3
      have hcd : (cdOcc ([] : List (Int × Int × String))).length = 0 := rfl
      simp only [List.length_nil] at h3
      omega
    rw [if_neg (by omega : ¬ (res.length : Int) ≠ sumVals (_count_map tracks))]
    have hspres : pairwiseSpaced res g :=
      schedLoop_ok_spaced g (sumVals (_count_map tracks)) _ _ _ _ _ _
        (goodState_init tracks g) hres
    rw [if_neg (by
      rw [valid_all_of_pairwiseSpaced res g hspres]
      simp : ¬ (g > 0 ∧ valid_all res g = false))]
    exact ⟨res, rfl⟩

/-! ## Claim theorems -/

deriving instance DecidableEq for Except

/-- C1, counterexample: the claim "`feasible = true` iff a valid ordering of
the multiset exists" is false at the distribution `{A: 2, B: 2}` with gap 2:
the analyzer reports `feasible = true` (`others = 2 ≥ 2 = gap * (maxCount-1)`),
but no ordering of `A, A, B, B` keeps two other occurrences between both pairs. -/
theorem C1_counterexample :
    (analyze_gap_feasibility [("A", 2), ("B", 2)] 2).feasible = true ∧
    ¬ ∃ l : List String,
        l.Perm (expandCounts (_count_map [("A", 2), ("B", 2)])) ∧ gapInvariant l 2 := by
  constructor
  · decide
  · rintro ⟨l, hperm, hinv⟩
    have hexp : expandCounts (_count_map [("A", 2), ("B", 2)]) = ["A", "A", "B", "B"] := by
      decide
    rw [hexp] at hperm
    have hps := pairwiseSpaced_of_gapInvariant l 2 hinv
    have hlen : l.length = 4 := by rw [hperm.length_eq]; rfl
    have hcA : l.count "A" = 2 := by rw [hperm.count_eq]; decide
    have hcB : l.count "B" = 2 := by rw [hperm.count_eq]; decide
    -- both items are tied at the maximum count, so both last occurrences
    -- must sit at position ≥ 3 = (2-1)*(2+1) in a list of length 4
    obtain ⟨qA, hqA1, hqA2, hqA3⟩ := exists_late_occurrence l 2 "A" hps (by omega)
    obtain ⟨qB, hqB1, hqB2, hqB3⟩ := exists_late_occurrence l 2 "B" hps (by omega)
    rw [hcA] at hqA3
    rw [hcB] at hqB3
    have hA3 : qA = 3 := by omega
    have hB3 : qB = 3 := by omega
    rw [hA3] at hqA2
    rw [hB3] at hqB2
    rw [hqA2] at hqB2
    injection hqB2 with h
    exact absurd h (by decide)

/-- C1, amended: the analyzer's condition `others ≥ gap * (maxCount - 1)` is
necessary for a valid ordering to exist (equivalently, `feasible = false`
implies no valid ordering), but not sufficient in general. -/
theorem C1_amended (tracks : List (String × Int)) (g : Int) (l : List String)
    (hg : 0 < g) (hperm : l.Perm (expandCounts (_count_map tracks)))
    (hinv : gapInvariant l g) :
    (analyze_gap_feasibility tracks g).feasible = true :=
  feasibility_necessary tracks g l hg hperm hinv

theorem C1_amended_witness :
    (analyze_gap_feasibility [("A", 2), ("B", 1)] 1).feasible = true :=
  C1_amended [("A", 2), ("B", 1)] 1 ["A", "B", "A"] (by decide)
    (by have hexp : expandCounts (_count_map [("A", 2), ("B", 1)]) = ["A", "A", "B"] := by
          decide
        rw [hexp]
        exact (List.Perm.swap "A" "B" []).cons "A")
    (gapInvariant_of_pairwiseSpaced _ _ ((pairwiseSpaced_iff_B _ _).mpr (by decide)))

/-- C2, code bug: at `{A: 2, B: 2}` with gap 2 the analyzer reports
`feasible = true`, yet `_schedule_with_gap` raises
`ValueError("... heap empty while songs remain.")` — contradicting the claim
that the scheduler fails only where the analyzer reports infeasible. -/
theorem C2_feasible_but_scheduler_fails :
    (analyze_gap_feasibility [("A", 2), ("B", 2)] 2).feasible = true ∧
    _schedule_with_gap [("A", 2), ("B", 2)] 2 =
      .error SchedError.heapEmptyWhileRemain := by
  constructor
  · decide
  · decide

/-- C3, code bug: on tracks `{A: 2, B: 2}` with `preferred_gap = 3`,
`min_allowed_gap = 2`, every candidate gap fails (gap 3 analyzer-infeasible,
gap 2 analyzer-feasible but the scheduler raises), and the final error carries
no diagnostic (`explain_gap_issue` returns `None` because the last analyzed
report was feasible): the bottleneck items and shortfall are not named. -/
theorem C3_generic_error_without_diagnostic :
    generate_round_robin [("A", 2), ("B", 2)] 3 2 false 0 =
      .error (GenError.cannotSchedule none) := by
  decide

/-- C4: whenever `generate_round_robin` returns a schedule — with or without
randomization, for any seed — the multiset of its elements is exactly the
merged count distribution of the input. -/
theorem C4_multiset_preserved (tracks : List (String × Int)) (p m : Int)
    (r : Bool) (s : Int) (l : List String)
    (hrun : generate_round_robin tracks p m r s = .ok l) :
    l.Perm (expandCounts (_count_map tracks)) := by
  simp only [generate_round_robin] at hrun
  obtain ⟨gap, _, _, base, hsched, hl⟩ := genLoop_ok tracks _ r s _ none l hrun
  have hbase := schedule_with_gap_perm tracks gap base hsched
  rcases hl with rfl | rfl
  · exact hbase
  · exact (randomize_perm base gap _).trans hbase

theorem C4_multiset_preserved_witness :
    (["A", "B", "C"] : List String).Perm
      (expandCounts (_count_map [("A", 1), ("B", 1), ("C", 1)])) :=
  C4_multiset_preserved [("A", 1), ("B", 1), ("C", 1)] 3 2 false 0
    ["A", "B", "C"] (by decide)

/-- C5: when the effective lower bound is at least 1, every schedule returned
by `generate_round_robin` satisfies the gap invariant for some achieved gap
between the normalized bounds. -/
theorem C5_returned_schedule_spaced (tracks : List (String × Int)) (p m : Int)
    (r : Bool) (s : Int) (l : List String) (hmin : 1 ≤ min p m)
    (hrun : generate_round_robin tracks p m r s = .ok l) :
    ∃ g : Int, min p m ≤ g ∧ g ≤ max p m ∧ gapInvariant l g := by
  simp only [generate_round_robin] at hrun
  obtain ⟨gap, hg1, hg2, base, hsched, hl⟩ := genLoop_ok tracks _ r s _ none l hrun
  have hm' : min p m ≤ gap := by
    by_cases hpm : p < m
    · rw [if_pos hpm] at hg1
      omega
    · rw [if_neg hpm] at hg1
      omega
  have hp' : gap ≤ max p m := by
    by_cases hpm : p < m
    · rw [if_pos hpm] at hg1 hg2
      rw [if_pos hpm] at hg2
      omega
    · rw [if_neg hpm] at hg1 hg2
      rw [if_neg hpm] at hg2
      omega
  have hgap0 : 0 < gap := by omega
  have hvalbase := schedule_with_gap_valid tracks gap base hgap0 hsched
  have hval : valid_all l gap = true := by
    rcases hl with rfl | rfl
    · exact hvalbase
    · exact randomize_valid base gap _ hvalbase
  exact ⟨gap, hm', hp',
    gapInvariant_of_pairwiseSpaced l gap (pairwiseSpaced_of_valid_all l gap hval)⟩

theorem C5_returned_schedule_spaced_witness :
    ∃ g : Int, min (1 : Int) 1 ≤ g ∧ g ≤ max (1 : Int) 1 ∧
      gapInvariant ["A", "B", "C"] g :=
  C5_returned_schedule_spaced [("A", 1), ("B", 1), ("C", 1)] 1 1 false 0
    ["A", "B", "C"] (by decide) (by decide)

/-- C7: for a schedule valid at gap `g > 0` of length `> 2`, every prefix of
the randomizer's candidate-swap steps (any draw sequence, hence any seed)
leaves the whole sequence valid, and the randomizer's non-trivial branch is
exactly that fold. -/
theorem C7_every_intermediate_state_valid (l : List String) (g : Int)
    (draws : List (Nat × Nat)) (k : Nat) (hg : 0 < g) (hlen : 2 < l.length)
    (hval : valid_all l g = true) :
    valid_all ((draws.take k).foldl (swapStep g) l) g = true ∧
    _randomize_schedule_preserving_gap l g draws = draws.foldl (swapStep g) l := by
  constructor
  · exact foldl_swapStep_valid g (draws.take k) l hval
  · unfold _randomize_schedule_preserving_gap
    rw [if_neg (by omega : ¬ (g ≤ 0 ∨ l.length ≤ 2))]

theorem C7_every_intermediate_state_valid_witness :
    valid_all (((([(0, 2), (1, 1)] : List (Nat × Nat))).take 1).foldl (swapStep 1)
      ["A", "B", "A"]) 1 = true ∧
    _randomize_schedule_preserving_gap ["A", "B", "A"] 1 [(0, 2), (1, 1)] =
      ([(0, 2), (1, 1)] : List (Nat × Nat)).foldl (swapStep 1) ["A", "B", "A"] :=
  C7_every_intermediate_state_valid ["A", "B", "A"] 1 [(0, 2), (1, 1)] 1
    (by decide) (by decide) (by decide)

/-- C8: `generate_round_robin` is deterministic: with `randomize = false` the
result does not depend on the seed at all (so two calls with identical inputs
agree), and with `randomize = true` two calls with the same seed agree. -/
theorem C8_determinism (tracks : List (String × Int)) (p m : Int) (s1 s2 : Int) :
    generate_round_robin tracks p m false s1 = generate_round_robin tracks p m false s2 ∧
    generate_round_robin tracks p m true s1 = generate_round_robin tracks p m true s1 := by
  refine ⟨?_, rfl⟩
  unfold generate_round_robin
  exact genLoop_seed_irrel tracks _ s1 s2 _ none

/-- C9: appending an input entry with count ≤ 0 changes neither the
feasibility report nor the result (or failure) of `generate_round_robin`. -/
theorem C9_nonpositive_entry_identity (tracks : List (String × Int))
    (name : String) (c g p m : Int) (r : Bool) (s : Int) (hc : c ≤ 0) :
    analyze_gap_feasibility (tracks ++ [(name, c)]) g =
      analyze_gap_feasibility tracks g ∧
    generate_round_robin (tracks ++ [(name, c)]) p m r s =
      generate_round_robin tracks p m r s := by
  have h := count_map_append_nonpos tracks name c hc
  exact ⟨analyze_congr _ _ h g, generate_congr _ _ h p m r s⟩

theorem C9_nonpositive_entry_identity_witness :
    analyze_gap_feasibility ([("A", 2)] ++ [("B", 0)]) 2 =
      analyze_gap_feasibility [("A", 2)] 2 ∧
    generate_round_robin ([("A", 2)] ++ [("B", 0)]) 3 2 false 0 =
      generate_round_robin [("A", 2)] 3 2 false 0 :=
  C9_nonpositive_entry_identity [("A", 2)] "B" 0 2 3 2 false 0 (by decide)

/-- C6: for every distribution that is feasible at gap 2 (some ordering of the
merged multiset satisfies the gap-2 invariant) but infeasible at gap 3 (no
ordering satisfies the gap-3 invariant), `generate_round_robin` with
`preferred_gap = 3` and `min_allowed_gap = 2` succeeds — the fallback
controller tries gap 3, fails, falls back to gap 2 and returns the first
success — and the returned schedule satisfies the gap-2 invariant.  This holds
with and without randomization, for every seed. -/
theorem C6_fallback_succeeds_at_min_gap (tracks : List (String × Int)) (r : Bool) (sd : Int)
    (hfeas2 : ∃ w, w.Perm (expandCounts (_count_map tracks)) ∧ gapInvariant w 2)
    (hinfeas3 : ¬ ∃ w, w.Perm (expandCounts (_count_map tracks)) ∧ gapInvariant w 3) :
    ∃ l, generate_round_robin tracks 3 2 r sd = .ok l ∧ gapInvariant l 2 := by
  obtain ⟨w, hwperm, hwinv⟩ := hfeas2
  have hwsp : pairwiseSpaced w 2 := pairwiseSpaced_of_gapInvariant w 2 hwinv
  obtain ⟨base, hbase⟩ := schedule_with_gap_complete tracks 2 (by norm_num) w hwperm hwsp
  have hbase_valid : gapInvariant base 2 :=
    gapInvariant_of_pairwiseSpaced _ _ (pairwiseSpaced_of_valid_all _ _
      (schedule_with_gap_valid tracks 2 base (by norm_num) hbase))
  have hfe2 : (analyze_gap_feasibility tracks 2).feasible = true :=
    feasibility_necessary tracks 2 w (by norm_num) hwperm hwinv
  -- the gap-2 leg of the loop succeeds whatever the recorded last issue is
  have hleg2 : ∀ li : Option FeasibilityReport,
      ∃ l, genLoop tracks 2 r sd 1 li = .ok l ∧ gapInvariant l 2 := by
    intro li
    have h1 : genLoop tracks 2 r sd 1 li = genLoop tracks 2 r sd (Nat.succ 0) li := rfl
    rw [h1]
    unfold genLoop
    simp only [Nat.cast_zero, add_zero]
    rw [if_neg (by rw [hfe2]; simp : ¬ (analyze_gap_feasibility tracks 2).feasible = false)]
    rw [hbase]
    simp only []
    by_cases hr : r
    · rw [if_pos hr]
      refine ⟨_, rfl, ?_⟩
      exact gapInvariant_of_pairwiseSpaced _ _ (pairwiseSpaced_of_valid_all _ _
        (randomize_valid base 2 _ (schedule_with_gap_valid tracks 2 base (by norm_num) hbase)))
    · rw [if_neg hr]
      exact ⟨base, rfl, hbase_valid⟩
  have hpm : generate_round_robin tracks 3 2 r sd = genLoop tracks 2 r sd 2 none := rfl
  rw [hpm]
  have h2 : genLoop tracks 2 r sd 2 none = genLoop tracks 2 r sd (Nat.succ 1) none := rfl
  rw [h2]
  unfold genLoop
  have hgap3 : (2 : Int) + ((1 : Nat) : Int) = 3 := by norm_num
  rw [hgap3]
  by_cases hfe3 : (analyze_gap_feasibility tracks 3).feasible = false
  · rw [if_pos hfe3]
    exact hleg2 _
  · rw [if_neg hfe3]
    rcases hrun3 : _schedule_with_gap tracks 3 with e3 | base3
    · cases e3 with
      | gapViolated => exact absurd hrun3 (schedule_with_gap_no_gapViolated tracks 3)
      | heapEmptyWhileRemain => exact hleg2 _
      | notAllPlaced => exact hleg2 _
      | outOfFuel => exact hleg2 _
    · exfalso
      apply hinfeas3
      refine ⟨base3, schedule_with_gap_perm tracks 3 base3 hrun3, ?_⟩
      exact gapInvariant_of_pairwiseSpaced _ _ (pairwiseSpaced_of_valid_all _ _
        (schedule_with_gap_valid tracks 3 base3 (by norm_num) hrun3))

theorem C6_fallback_succeeds_at_min_gap_witness :
    ∃ l, generate_round_robin [("A", 3), ("B", 2), ("C", 2)] 3 2 false 0 = .ok l ∧
      gapInvariant l 2 :=
  C6_fallback_succeeds_at_min_gap [("A", 3), ("B", 2), ("C", 2)] false 0
    ⟨["A", "B", "C", "A", "B", "C", "A"], by decide,
      gapInvariant_of_pairwiseSpaced _ _ ((pairwiseSpaced_iff_B _ _).mpr (by decide))⟩
    (by
      intro h
      obtain ⟨w, hwperm, hwinv⟩ := h
      have hfe := feasibility_necessary [("A", 3), ("B", 2), ("C", 2)] 3 w (by norm_num)
        hwperm hwinv
      have hff : (analyze_gap_feasibility [("A", 3), ("B", 2), ("C", 2)] 3).feasible
          = false := by decide
      rw [hfe] at hff
      cases hff)

end Scheduler
